import Mathlib

/-!
Verification development for the LibraryMovementTracker repository.

The Python sources are shallowly embedded over exact rationals:
* `src/core/enhanced_tracker.py` (ghost-buffer tracker),
* `src/core/zone_tracker.py` (zone occupancy engine),
* `src/core/pose_temporal_detector.py` (activity smoothing).

Python `dict`s are embedded as insertion-ordered association lists
(updating an existing key keeps its position, a new key is appended,
deleting a key removes it), Python `set`s as `Finset` iterated in
ascending order, IEEE doubles as `ℚ`.  `np.sqrt` is embedded by
`ratSqrt`, a rational square root that is exact on perfect squares
(every theorem below either does not depend on square-root values at
all, or is evaluated only at inputs whose radicand is a perfect
square).
-/

/-- Association-list lookup: the value at the first occurrence of the key. -/
def aget {α β : Type} [DecidableEq α] : List (α × β) → α → Option β
  | [], _ => none
  | p :: r, k => if p.1 = k then some p.2 else aget r k

/-- Association-list lookup with a default value. -/
def agetD {α β : Type} [DecidableEq α] (l : List (α × β)) (k : α) (d : β) : β :=
  (aget l k).getD d

/-- Python-dict style update: replace in place if the key is present,
append at the end otherwise. -/
def aset {α β : Type} [DecidableEq α] : List (α × β) → α → β → List (α × β)
  | [], k, v => [(k, v)]
  | p :: r, k, v => if p.1 = k then (k, v) :: r else p :: aset r k v

/-- Python-dict style deletion of a key. -/
def aerase {α β : Type} [DecidableEq α] (l : List (α × β)) (k : α) : List (α × β) :=
  l.filter (fun p => decide (¬ p.1 = k))

/-- The keys of an association list, in insertion order. -/
def akeys {α β : Type} (l : List (α × β)) : List α := l.map Prod.fst

/-- Embedding of `np.sqrt` on nonnegative rationals: exact whenever the
argument is the square of a rational, an integer-square-root based
approximation otherwise. -/
def ratSqrt (q : ℚ) : ℚ :=
  if q ≤ 0 then 0 else (Nat.sqrt (q.num.toNat * q.den) : ℚ) / (q.den : ℚ)

/-- Axis-aligned bounding box `[x1, y1, x2, y2]`. -/
structure Bbox where
  x1 : ℚ
  y1 : ℚ
  x2 : ℚ
  y2 : ℚ
deriving DecidableEq, Repr

/-- `GhostTrack._calculate_center`. -/
def bboxCenter (b : Bbox) : ℚ × ℚ := ((b.x1 + b.x2) / 2, (b.y1 + b.y2) / 2)

/-- `GhostTrack` of `enhanced_tracker.py`: a lost track kept for re-matching. -/
structure GhostTrack where
  bbox : Bbox
  center : ℚ × ℚ
  last_seen_frame : ℕ
deriving DecidableEq, Repr

/-- `GhostTrack.__init__`: the centre is derived from the stored bbox. -/
def mkGhost (b : Bbox) (lastSeen : ℕ) : GhostTrack :=
  ⟨b, bboxCenter b, lastSeen⟩

/-- `GhostTrack.calculate_iou`: intersection over union of the ghost's
bbox with a candidate bbox, `0` on disjoint boxes or zero union. -/
def GhostTrack.calculate_iou (g : GhostTrack) (b : Bbox) : ℚ :=
  let x1i := max g.bbox.x1 b.x1
  let y1i := max g.bbox.y1 b.y1
  let x2i := min g.bbox.x2 b.x2
  let y2i := min g.bbox.y2 b.y2
  if x2i < x1i ∨ y2i < y1i then 0
  else
    let inter := (x2i - x1i) * (y2i - y1i)
    let area1 := (g.bbox.x2 - g.bbox.x1) * (g.bbox.y2 - g.bbox.y1)
    let area2 := (b.x2 - b.x1) * (b.y2 - b.y1)
    let uni := area1 + area2 - inter
    if 0 < uni then inter / uni else 0

/-- `GhostTrack.calculate_distance`: Euclidean distance between the
candidate bbox's centre and the ghost's stored centre. -/
def GhostTrack.calculate_distance (g : GhostTrack) (b : Bbox) : ℚ :=
  let c := bboxCenter b
  ratSqrt ((c.1 - g.center.1) ^ 2 + (c.2 - g.center.2) ^ 2)

/-- One record of `EnhancedTracker.tracking_log` (the decision log),
keeping the fields the analysis below uses. -/
inductive TrackEvent
  | suspicious (frame : ℕ) (bytetrack_id : ℤ) (distance iou : ℚ)
  | matchAttempt (frame : ℕ) (bytetrack_id : ℤ) (wasSuspicious : Bool)
      (best : Option (ℤ × ℚ))
  | restored (frame : ℕ) (bytetrack_id restored_id : ℤ)
  | newId (frame : ℕ) (bytetrack_id : ℤ)
  | continued (frame : ℕ) (tracker_id : ℤ)
deriving DecidableEq, Repr

/-- State of `EnhancedTracker` (the external ByteTrack base tracker is
not part of the state: its per-frame output, a list of boxes with
provisional ids, is the input of `update_with_detections`). -/
structure EnhancedTracker where
  ghost_buffer_frames : ℕ := 90
  ghost_iou_threshold : ℚ := 3 / 10
  ghost_distance_threshold : ℚ := 150
  ghost_tracks : List (ℤ × GhostTrack) := []
  active_tracks : List (ℤ × Bbox) := []
  last_frame_active_ids : Finset ℤ := ∅
  frame_count : ℕ := 0
  tracking_log : List TrackEvent := []
deriving DecidableEq

/-- The per-detection `active_tracks[tracker_id] = bbox` updates of
`update_with_detections` (ids `-1` are skipped). -/
def updActive (acts : List (ℤ × Bbox)) (dets : List (Bbox × ℤ)) : List (ℤ × Bbox) :=
  dets.foldl (fun a d => if d.2 = -1 then a else aset a d.2 d.1) acts

/-- `current_active_ids`: the set of provisional ids other than `-1`. -/
def currentIds (dets : List (Bbox × ℤ)) : Finset ℤ :=
  dets.foldl (fun s d => if d.2 = -1 then s else insert d.2 s) ∅

/-- Promotion of lost ids to ghosts: a fresh `GhostTrack` with
`last_seen_frame = frame_count - 1` is appended for every lost id that
is still in `active_tracks` and not yet a ghost. -/
def promote (ghosts : List (ℤ × GhostTrack)) (acts : List (ℤ × Bbox))
    (lost : List ℤ) (fc : ℕ) : List (ℤ × GhostTrack) :=
  lost.foldl
    (fun g lid =>
      match aget acts lid, aget g lid with
      | some b, none => g ++ [(lid, mkGhost b (fc - 1))]
      | _, _ => g)
    ghosts

/-- Expiry of ghosts: keep exactly those whose age
`frame_count - last_seen_frame` is at most `ghost_buffer_frames`. -/
def expire (ghosts : List (ℤ × GhostTrack)) (fc : ℕ) (gbf : ℕ) :
    List (ℤ × GhostTrack) :=
  ghosts.filter (fun p => decide ((fc : ℤ) - (p.2.last_seen_frame : ℤ) ≤ (gbf : ℤ)))

/-- The matching score `0.6 * iou + 0.4 * distance_score` with
`distance_score = max 0 (1 - distance / ghost_distance_threshold)`. -/
def scoreOf (dthr : ℚ) (g : GhostTrack) (b : Bbox) : ℚ :=
  6 / 10 * g.calculate_iou b + 4 / 10 * max 0 (1 - g.calculate_distance b / dthr)

/-- The match criteria of the ghost scan:
`iou >= ghost_iou_threshold and distance <= ghost_distance_threshold`. -/
def matchCriteria (ithr dthr : ℚ) (g : GhostTrack) (b : Bbox) : Prop :=
  ithr ≤ g.calculate_iou b ∧ g.calculate_distance b ≤ dthr

instance (ithr dthr : ℚ) (g : GhostTrack) (b : Bbox) :
    Decidable (matchCriteria ithr dthr g b) := by
  unfold matchCriteria; infer_instance

/-- The running best of the ghost scan (`best_score` starts at `0.0`). -/
def bestScoreOpt : Option (ℤ × ℚ) → ℚ
  | none => 0
  | some p => p.2

/-- One step of the ghost scan: skip used ghosts, skip ghosts failing
the match criteria, otherwise keep the candidate iff its score strictly
exceeds the running best. -/
def bestStep (ithr dthr : ℚ) (used : Finset ℤ) (b : Bbox)
    (best : Option (ℤ × ℚ)) (p : ℤ × GhostTrack) : Option (ℤ × ℚ) :=
  if p.1 ∈ used then best
  else if matchCriteria ithr dthr p.2 b then
    let s := scoreOf dthr p.2 b
    if bestScoreOpt best < s then some (p.1, s) else best
  else best

/-- The ghost scan of `update_with_detections`: fold `bestStep` over the
buffer in insertion order, starting from no candidate and score `0`. -/
def findBestGhost (ithr dthr : ℚ) (ghosts : List (ℤ × GhostTrack))
    (used : Finset ℤ) (b : Bbox) : Option (ℤ × ℚ) :=
  ghosts.foldl (bestStep ithr dthr used b) none

/-- The suspicious-reassignment test: the provisional id is itself a
ghost and the detection is far from the ghost's recorded position. -/
def suspiciousFlag (ithr dthr : ℚ) (ghosts : List (ℤ × GhostTrack))
    (tid : ℤ) (b : Bbox) : Bool :=
  match aget ghosts tid with
  | some g => decide (dthr < g.calculate_distance b ∧ g.calculate_iou b < ithr)
  | none => false

/-- Mutable state threaded through the per-detection loop of
`update_with_detections`: output ids so far, ghosts already reclaimed
this frame, the ghost buffer, `active_tracks` and the decision log. -/
structure MatchState where
  ids : List ℤ
  used : Finset ℤ
  ghosts : List (ℤ × GhostTrack)
  acts : List (ℤ × Bbox)
  log : List TrackEvent
deriving DecidableEq

/-- The body of the per-detection loop of `update_with_detections`:
classify the detection as continued / new / suspicious, run the ghost
scan for new or suspicious ids, rewrite the output id and erase the
ghost on a match, keep the provisional id otherwise. -/
def processDetection (ithr dthr : ℚ) (last : Finset ℤ) (fc : ℕ)
    (st : MatchState) (b : Bbox) (tid : ℤ) : MatchState :=
  let susp := suspiciousFlag ithr dthr st.ghosts tid b
  let log1 :=
    if susp then
      st.log ++ [TrackEvent.suspicious fc tid
        ((agetD st.ghosts tid (mkGhost b 0)).calculate_distance b)
        ((agetD st.ghosts tid (mkGhost b 0)).calculate_iou b)]
    else st.log
  if (tid ≠ -1 ∧ tid ∉ last) ∨ susp = true then
    let best := findBestGhost ithr dthr st.ghosts st.used b
    let log2 := log1 ++ [TrackEvent.matchAttempt fc tid susp best]
    match best with
    | some (gid, _) =>
        ⟨st.ids ++ [gid], insert gid st.used, aerase st.ghosts gid,
          aset st.acts gid b, log2 ++ [TrackEvent.restored fc tid gid]⟩
    | none =>
        ⟨st.ids ++ [tid], st.used, st.ghosts, st.acts,
          log2 ++ [TrackEvent.newId fc tid]⟩
  else
    ⟨st.ids ++ [tid], st.used, st.ghosts, st.acts,
      log1 ++ [TrackEvent.continued fc tid]⟩

/-- The ghost buffer handed to the matching loop: after promotion of
this frame's losses and expiry of over-aged ghosts. -/
def matchGhosts (t : EnhancedTracker) (dets : List (Bbox × ℤ)) :
    List (ℤ × GhostTrack) :=
  let fc := t.frame_count + 1
  let acts1 := updActive t.active_tracks dets
  let lost := (t.last_frame_active_ids \ currentIds dets).sort (· ≤ ·)
  expire (promote t.ghost_tracks acts1 lost fc) fc t.ghost_buffer_frames

/-- `EnhancedTracker.update_with_detections`, returning the new state
and the final (possibly rewritten) id list. -/
def update_with_detections (t : EnhancedTracker) (dets : List (Bbox × ℤ)) :
    EnhancedTracker × List ℤ :=
  let fc := t.frame_count + 1
  let acts1 := updActive t.active_tracks dets
  let curIds := currentIds dets
  let g2 := matchGhosts t dets
  if dets = [] then
    let acts2 := acts1.filter
      (fun p => decide (p.1 ∈ curIds) || (aget g2 p.1).isSome)
    ({ t with
        frame_count := fc
        ghost_tracks := g2
        active_tracks := acts2
        last_frame_active_ids := curIds }, [])
  else
    let st := dets.foldl
      (fun st d => processDetection t.ghost_iou_threshold t.ghost_distance_threshold
        t.last_frame_active_ids fc st d.1 d.2)
      ⟨[], ∅, g2, acts1, t.tracking_log⟩
    let finalIds := st.ids.toFinset
    let acts2 := st.acts.filter
      (fun p => decide (p.1 ∈ finalIds) || (aget st.ghosts p.1).isSome)
    ({ t with
        frame_count := fc
        ghost_tracks := st.ghosts
        active_tracks := acts2
        last_frame_active_ids := finalIds
        tracking_log := st.log }, st.ids)

/-- Kind of a zone event (`'entry'` / `'exit'` in `zone_tracker.py`). -/
inductive ZEventKind
  | entry
  | leave
deriving DecidableEq, Repr

/-- One record of `ZoneTracker.analytics_data` (`timestamp` holds the
wall-clock time, a `ℚ` in this embedding). -/
structure ZoneEvent where
  timestamp : ℚ
  frame : ℕ
  frame_time_sec : ℚ
  person_id : ℤ
  zone_id : ℕ
  kind : ZEventKind
  duration_sec : Option ℚ
deriving DecidableEq, Repr

/-- Python `round(x, 2)` (round-half-up on exact rationals in this
embedding; no theorem below is evaluated at a half-way point). -/
def round2 (q : ℚ) : ℚ := (round (q * 100) : ℤ) / 100

/-- State of `ZoneTracker`. -/
structure ZoneTracker where
  fps : ℕ := 30
  frame_count : ℕ := 0
  zone_entries : List (ℕ × List (ℤ × ℚ)) := []
  zone_exits : List (ℕ × List (ℤ × ℚ)) := []
  zone_durations : List (ℕ × List (ℤ × ℚ)) := []
  zone_current : List (ℕ × Finset ℤ) := []
  analytics_data : List ZoneEvent := []
deriving DecidableEq

/-- `ZoneTracker.initialize_zone`: create empty per-zone maps for a new
zone id (membership is tested on `zone_entries` only, as in the source). -/
def initialize_zone (zt : ZoneTracker) (z : ℕ) : ZoneTracker :=
  if (aget zt.zone_entries z).isSome then zt
  else
    { zt with
        zone_entries := zt.zone_entries ++ [(z, [])]
        zone_exits := zt.zone_exits ++ [(z, [])]
        zone_durations := zt.zone_durations ++ [(z, [])]
        zone_current := zt.zone_current ++ [(z, ∅)] }

/-- Update `m[z][p] = v` in a nested per-zone map. -/
def aset2 (m : List (ℕ × List (ℤ × ℚ))) (z : ℕ) (p : ℤ) (v : ℚ) :
    List (ℕ × List (ℤ × ℚ)) :=
  aset m z (aset (agetD m z []) p v)

/-- The body of the new-entries loop of `update_zone_tracking`: record
the entry time and append an `entry` event. -/
def processEntry (z fc : ℕ) (fts now : ℚ) (zt : ZoneTracker) (p : ℤ) :
    ZoneTracker :=
  { zt with
      zone_entries := aset2 zt.zone_entries z p now
      analytics_data := zt.analytics_data ++
        [⟨now, fc, round2 fts, p, z, ZEventKind.entry, none⟩] }

/-- The body of the exits loop of `update_zone_tracking`: record the
exit time; if the person has an entry time, accumulate the dwell into
`zone_durations` and append an `exit` event carrying the rounded dwell. -/
def processExit (z fc : ℕ) (fts now : ℚ) (zt : ZoneTracker) (p : ℤ) :
    ZoneTracker :=
  let zt1 := { zt with zone_exits := aset2 zt.zone_exits z p now }
  match aget (agetD zt.zone_entries z []) p with
  | some entryTime =>
      let dur := now - entryTime
      { zt1 with
          zone_durations := aset2 zt1.zone_durations z p
            (agetD (agetD zt1.zone_durations z []) p 0 + dur)
          analytics_data := zt1.analytics_data ++
            [⟨now, fc, round2 fts, p, z, ZEventKind.leave, some (round2 dur)⟩] }
  | none => zt1

/-- The body of `ZoneTracker.update_zone_tracking` after the
`initialize_zone` call: log entries for `pids \ current`, exits for
`current \ pids`, then replace the occupancy set. -/
def zoneUpdCore (zt0 : ZoneTracker) (z : ℕ) (pids : Finset ℤ)
    (now : ℚ) : ZoneTracker :=
  let fts : ℚ := (zt0.frame_count : ℚ) / (zt0.fps : ℚ)
  let cur := agetD zt0.zone_current z ∅
  let zt1 := ((pids \ cur).sort (· ≤ ·)).foldl
    (processEntry z zt0.frame_count fts now) zt0
  let zt2 := ((cur \ pids).sort (· ≤ ·)).foldl
    (processExit z zt0.frame_count fts now) zt1
  { zt2 with zone_current := aset zt2.zone_current z pids }

/-- `ZoneTracker.update_zone_tracking` (the wall-clock `datetime.now()`
is the explicit `now` argument). -/
def update_zone_tracking (zt : ZoneTracker) (z : ℕ) (pids : Finset ℤ)
    (now : ℚ) : ZoneTracker :=
  zoneUpdCore (initialize_zone zt z) z pids now

/-- The per-zone summary of `ZoneTracker.get_zone_analytics`. -/
structure ZoneAnalytics where
  current_occupancy : ℕ
  current_people : List ℤ
  total_entries : ℕ
  total_exits : ℕ
  average_duration : ℚ
  durations_by_person : List (ℤ × ℚ)
deriving DecidableEq, Repr

/-- `ZoneTracker.get_zone_analytics`. -/
def get_zone_analytics (zt : ZoneTracker) (z : ℕ) : ZoneAnalytics :=
  let zt0 := initialize_zone zt z
  let durs := agetD zt0.zone_durations z []
  { current_occupancy := (agetD zt0.zone_current z ∅).card
    current_people := (agetD zt0.zone_current z ∅).sort (· ≤ ·)
    total_entries := (agetD zt0.zone_entries z []).length
    total_exits := (agetD zt0.zone_exits z []).length
    average_duration :=
      if durs = [] then 0 else (durs.map Prod.snd).sum / (durs.length : ℚ)
    durations_by_person := durs }

/-- A run of the zone engine: fold `update_zone_tracking` over a list of
`(zone_id, person_ids_in_zone, now)` calls starting from a fresh tracker. -/
def runZone (steps : List (ℕ × Finset ℤ × ℚ)) : ZoneTracker :=
  steps.foldl (fun zt s => update_zone_tracking zt s.1 s.2.1 s.2.2) {}

/-- The events of the analytics log belonging to one `(zone, person)` pair. -/
def evFilter (l : List ZoneEvent) (z : ℕ) (p : ℤ) : List ZoneEvent :=
  l.filter (fun e => decide (e.zone_id = z ∧ e.person_id = p))

/-- The kinds of the events of one `(zone, person)` pair, in log order. -/
def pairKinds (l : List ZoneEvent) (z : ℕ) (p : ℤ) : List ZEventKind :=
  (evFilter l z p).map ZoneEvent.kind

/-- Protocol automaton for one `(zone, person)` pair: starting from
presence flag `inside`, consume events; an `entry` is legal only while
outside and an `exit` only while inside.  Returns the final presence
flag, or `none` if the sequence violates strict alternation. -/
def insideAfter : List ZEventKind → Bool → Option Bool
  | [], b => some b
  | ZEventKind.entry :: r, false => insideAfter r true
  | ZEventKind.leave :: r, true => insideAfter r false
  | _, _ => none

/-- Modelled from the spec: replaying the written zone event log, the
claim's reconstruction of `total_entries` for a zone is the number of
`entry` events recorded for that zone. -/
def specReplayEntryCount (l : List ZoneEvent) (z : ℕ) : ℕ :=
  (l.filter (fun e => decide (e.zone_id = z ∧ e.kind = ZEventKind.entry))).length

/-- Modelled from the spec: the claim's reconstruction of `total_exits`
for a zone is the number of `exit` events recorded for that zone. -/
def specReplayExitCount (l : List ZoneEvent) (z : ℕ) : ℕ :=
  (l.filter (fun e => decide (e.zone_id = z ∧ e.kind = ZEventKind.leave))).length

/-- The distinct persons having an `entry` event for zone `z` in the log. -/
def entryPersons (l : List ZoneEvent) (z : ℕ) : Finset ℤ :=
  ((l.filter (fun e => decide (e.zone_id = z ∧ e.kind = ZEventKind.entry))).map
    ZoneEvent.person_id).toFinset

/-- The distinct persons having an `exit` event for zone `z` in the log. -/
def exitPersons (l : List ZoneEvent) (z : ℕ) : Finset ℤ :=
  ((l.filter (fun e => decide (e.zone_id = z ∧ e.kind = ZEventKind.leave))).map
    ZoneEvent.person_id).toFinset

/-- A pose sample: 17 COCO keypoints as `(x, y)` pairs (a joint at
`(0, 0)` is invalid, as in the source). -/
abbrev Keypoints := List (ℚ × ℚ)

/-- State of `PoseTemporalDetector` (the YOLO pose model is external;
its per-call output is the `Option Keypoints` input of
`classify_activity`). -/
structure PoseTemporalDetector where
  keypoint_history : List (ℤ × List (Keypoints × ℚ)) := []
  activity_history : List (ℤ × List String) := []
  history_length : ℕ := 30
  standing_speed_threshold : ℚ := 25
  walking_threshold : ℚ := 100
  sitting_hip_angle_max : ℚ := 120
  reading_head_angle_min : ℚ := 30
deriving DecidableEq

/-- The hip centre `(kp[LEFT_HIP] + kp[RIGHT_HIP]) / 2` (COCO indices
11 and 12). -/
def hipCenter (kp : Keypoints) : ℚ × ℚ :=
  let lh := kp.getD 11 (0, 0)
  let rh := kp.getD 12 (0, 0)
  ((lh.1 + rh.1) / 2, (lh.2 + rh.2) / 2)

/-- `PoseTemporalDetector.calculate_velocity`: average the hip-centre
speeds of the up-to-4 most recent consecutive sample pairs, skipping
pairs with an all-zero hip centre or a non-positive time step. -/
def calculate_velocity (h : List (Keypoints × ℚ)) : ℚ :=
  if h.length < 2 then 0
  else
    let r := h.reverse
    let pairs := (r.zip r.tail).take 4
    let vels := pairs.foldr
      (fun pr acc =>
        let ch := hipCenter pr.1.1
        let ph := hipCenter pr.2.1
        if ch = (0, 0) ∨ ph = (0, 0) then acc
        else
          let dt := pr.1.2 - pr.2.2
          if 0 < dt then
            ratSqrt ((ch.1 - ph.1) ^ 2 + (ch.2 - ph.2) ^ 2) / dt :: acc
          else acc)
      []
    if vels = [] then 0 else vels.sum / (vels.length : ℚ)

/-- `PoseTemporalDetector.classify_activity`.  The pose-adapter output is
the `pose` argument (`none` embeds `detect_pose` returning `None`).  The
head-tilt and sitting tests (`calculate_head_tilt`, `is_sitting`) involve
`arccos`, which has no exact rational embedding; they are passed as the
function arguments `headTilt` and `isSitting`, pure functions of the
keypoints exactly as in the source.  Returns the label and the new state. -/
def classify_activity (headTilt : Keypoints → ℚ) (isSitting : Keypoints → Bool)
    (det : PoseTemporalDetector) (pid : ℤ) (pose : Option Keypoints)
    (ts : ℚ) : String × PoseTemporalDetector :=
  match pose with
  | none => ("no_pose", det)
  | some kp =>
      let known := (aget det.keypoint_history pid).isSome
      let kh0 := if known then agetD det.keypoint_history pid [] else []
      let ah0 := if known then agetD det.activity_history pid [] else []
      let kh1 := kh0 ++ [(kp, ts)]
      let kh2 :=
        if det.history_length < kh1.length then
          kh1.drop (kh1.length - det.history_length)
        else kh1
      let det1 :=
        { det with
            keypoint_history := aset det.keypoint_history pid kh2
            activity_history := aset det.activity_history pid ah0 }
      if kh2.length < 5 then ("initializing", det1)
      else
        let velocity := calculate_velocity kh2
        let tilt := headTilt kp
        let sitting := isSitting kp
        let activity :=
          if sitting then
            if det.reading_head_angle_min < tilt then "reading" else "sitting"
          else if velocity < det.standing_speed_threshold then
            if det.reading_head_angle_min < tilt then "reading_standing"
            else "standing"
          else "walking"
        let ah1 := ah0 ++ [activity]
        let ah2 := if 30 < ah1.length then ah1.drop (ah1.length - 30) else ah1
        (activity, { det1 with activity_history := aset det1.activity_history pid ah2 })

/-- One step of the counting loop of `get_dominant_activity`:
`counts[activity] = counts.get(activity, 0) + 1` on an insertion-ordered
dict. -/
def bump (cs : List (String × ℕ)) (a : String) : List (String × ℕ) :=
  match aget cs a with
  | some c => aset cs a (c + 1)
  | none => cs ++ [(a, 1)]

/-- The `counts` dict of `get_dominant_activity`, keys in order of first
occurrence. -/
def buildCounts (l : List String) : List (String × ℕ) :=
  l.foldl bump []

/-- One step of Python `max(..., key=...)`: keep the incumbent unless
the challenger is strictly larger (so the first maximum wins). -/
def maxStep (best q : String × ℕ) : String × ℕ :=
  if best.2 < q.2 then q else best

/-- Python `max(counts, key=counts.get)`: the first key attaining the
maximal count, in dict (first-occurrence) order. -/
def maxKey : List (String × ℕ) → String
  | [] => "unknown"
  | p :: r => (r.foldl maxStep p).1

/-- The window `history[-window:]` (for `window = 0` Python slicing
yields the whole list). -/
def recentWindow (h : List String) (window : ℕ) : List String :=
  if window = 0 then h else h.drop (h.length - window)

/-- `PoseTemporalDetector.get_dominant_activity`. -/
def get_dominant_activity (det : PoseTemporalDetector) (pid : ℤ)
    (window : ℕ) : String :=
  match aget det.activity_history pid with
  | none => "unknown"
  | some h =>
      if h = [] then "unknown"
      else maxKey (buildCounts (recentWindow h window))

/-- The number of occurrences of a label in a list. -/
def countOcc (l : List String) (a : String) : ℕ :=
  (l.filter (fun x => decide (x = a))).length

/-- Index of the first occurrence of a label (length of the list if absent). -/
def firstIdx : List String → String → ℕ
  | [], _ => 0
  | b :: r, a => if b = a then 0 else firstIdx r a + 1

/-- Fixture box `(0, 0, 10, 10)`. -/
def boxA : Bbox := ⟨0, 0, 10, 10⟩

/-- Fixture box `(4, 0, 14, 10)`, overlapping `boxA`. -/
def boxB : Bbox := ⟨4, 0, 14, 10⟩

/-- Fixture box `(2, 0, 12, 10)`, equidistant from and equally
overlapping `boxA` and `boxB`. -/
def boxC : Bbox := ⟨2, 0, 12, 10⟩

/-- Fixture run for C1: one detection with id 1, then an empty frame
(the track is lost and becomes a ghost). -/
def c1run : EnhancedTracker :=
  (update_with_detections (update_with_detections {} [(boxA, 1)]).1 []).1

/-- Fixture run for C8, first three frames: id 5 (at `boxA`) and id 3
(at `boxB`) both active, then 5 lost, then 3 lost, leaving the ghost
buffer `[5, 3]` in insertion order with 5 first. -/
def c8run : EnhancedTracker :=
  (update_with_detections
    (update_with_detections
      (update_with_detections {} [(boxA, 5), (boxB, 3)]).1
      [(boxB, 3)]).1
    []).1

/-- Fixture tracker for the C3 witness: a single ghost of age
`101 > ghost_buffer_frames = 90`. -/
def c3tracker : EnhancedTracker :=
  { frame_count := 100, ghost_tracks := [(3, mkGhost boxA 0)] }

/-- Fixture match state for the C2 witness: one unclaimed ghost with id
4 at `boxA`. -/
def c2state : MatchState :=
  ⟨[], ∅, [(4, mkGhost boxA 0)], [], []⟩

/-- Fixture zone run for C5: person 7 enters zone 0 at time 0. -/
def c5zt1 : ZoneTracker := update_zone_tracking {} 0 {7} 0

/-- Fixture zone run for C5, continued: person 7 leaves zone 0 at time
`1/3` (a dwell that is not a multiple of `1/100`). -/
def c5zt2 : ZoneTracker := update_zone_tracking c5zt1 0 ∅ (1 / 3)

/-- Fixture zone run for C6: person 1 enters zone 0, leaves, re-enters
(two entry events, one exit event). -/
def c6run : ZoneTracker := runZone [(0, {1}, 0), (0, ∅, 1), (0, {1}, 2)]

/-- Fixture label history for C9: counts tie between `"sitting"` and
`"standing"`, and `"standing"` has the more recent occurrence. -/
def c9hist : List String := ["sitting", "standing", "sitting", "standing"]

/-- Fixture detector state for C9. -/
def c9det : PoseTemporalDetector := { activity_history := [(1, c9hist)] }

/-- The per-zone entry-time map (`zone_entries[z]`, empty for unknown zones). -/
def zEntries (zt : ZoneTracker) (z : ℕ) : List (ℤ × ℚ) :=
  agetD zt.zone_entries z []

/-- The per-zone exit-time map (`zone_exits[z]`). -/
def zExits (zt : ZoneTracker) (z : ℕ) : List (ℤ × ℚ) :=
  agetD zt.zone_exits z []

/-- The per-zone cumulative-dwell map (`zone_durations[z]`). -/
def zDurations (zt : ZoneTracker) (z : ℕ) : List (ℤ × ℚ) :=
  agetD zt.zone_durations z []

/-- The per-zone occupancy set (`zone_current[z]`). -/
def zCur (zt : ZoneTracker) (z : ℕ) : Finset ℤ :=
  agetD zt.zone_current z ∅

/-- Reachability invariant of the zone engine, proved for every run:
per `(zone, person)` pair, the event log alternates
ENTRY, EXIT, ENTRY, … and its parity matches current presence; the
entry-time (exit-time) key sets are exactly the persons with a logged
entry (exit) event; present persons have an entry time; the per-zone
maps have duplicate-free keys. -/
def ZInv (zt : ZoneTracker) : Prop :=
  ∀ z : ℕ,
    (akeys (zEntries zt z)).Nodup ∧
    (akeys (zExits zt z)).Nodup ∧
    ∀ p : ℤ,
      insideAfter (pairKinds zt.analytics_data z p) false
        = some (decide (p ∈ zCur zt z)) ∧
      ((aget (zEntries zt z) p).isSome ↔ p ∈ entryPersons zt.analytics_data z) ∧
      ((aget (zExits zt z) p).isSome ↔ p ∈ exitPersons zt.analytics_data z) ∧
      (p ∈ zCur zt z → (aget (zEntries zt z) p).isSome)

/-- Invariant of the counting loop of `get_dominant_activity`: after
consuming the prefix `pre`, the dict holds exactly the labels of `pre`
with their multiplicities, keys duplicate-free and ordered by first
occurrence in `pre`. -/
def CountsOk (pre : List String) (cs : List (String × ℕ)) : Prop :=
  (∀ a, aget cs a = if a ∈ pre then some (countOcc pre a) else none) ∧
  (akeys cs).Nodup ∧
  (akeys cs).Pairwise (fun a b => firstIdx pre a < firstIdx pre b) ∧
  (∀ a ∈ akeys cs, a ∈ pre)

/-! ### Association-list lemmas -/

theorem akeys_nil {α β : Type} : akeys ([] : List (α × β)) = [] := rfl

theorem akeys_cons {α β : Type} (p : α × β) (r : List (α × β)) :
    akeys (p :: r) = p.1 :: akeys r := rfl

theorem akeys_append {α β : Type} (l m : List (α × β)) :
    akeys (l ++ m) = akeys l ++ akeys m := by
  simp [akeys]

theorem aget_aset_eq {α β : Type} [DecidableEq α] (l : List (α × β)) (k : α) (v : β) :
    aget (aset l k v) k = some v := by
  induction l with
  | nil => simp [aset, aget]
  | cons p r ih =>
      by_cases h : p.1 = k
      · simp [aset, aget, h]
      · simp [aset, aget, h, ih]

theorem aget_aset_ne {α β : Type} [DecidableEq α] (l : List (α × β)) (k k' : α) (v : β)
    (h : k ≠ k') : aget (aset l k v) k' = aget l k' := by
  induction l with
  | nil => simp [aset, aget, h]
  | cons p r ih =>
      by_cases hp : p.1 = k
      · subst hp
        simp [aset, aget, h, Ne.symm h]
      · by_cases hp' : p.1 = k'
        · simp [aset, aget, hp, hp', Ne.symm h]
        · simp [aset, aget, hp, hp', ih]

theorem aset_aset {α β : Type} [DecidableEq α] (l : List (α × β)) (k : α) (v w : β) :
    aset (aset l k v) k w = aset l k w := by
  induction l with
  | nil => simp [aset]
  | cons p r ih =>
      by_cases h : p.1 = k
      · simp [aset, h]
      · simp [aset, h, ih]

theorem aget_append_of_some {α β : Type} [DecidableEq α] {l : List (α × β)} {k : α}
    {v : β} (m : List (α × β)) (h : aget l k = some v) : aget (l ++ m) k = some v := by
  induction l with
  | nil => simp [aget] at h
  | cons p r ih =>
      by_cases hp : p.1 = k
      · simp [aget, hp] at h ⊢
        exact h
      · simp [aget, hp] at h ⊢
        exact ih h

theorem aget_append_of_none {α β : Type} [DecidableEq α] {l : List (α × β)} {k : α}
    (m : List (α × β)) (h : aget l k = none) : aget (l ++ m) k = aget m k := by
  induction l with
  | nil => simp
  | cons p r ih =>
      by_cases hp : p.1 = k
      · simp [aget, hp] at h
      · simp [aget, hp] at h ⊢
        exact ih h

theorem aget_some_mem {α β : Type} [DecidableEq α] {l : List (α × β)} {k : α} {v : β}
    (h : aget l k = some v) : (k, v) ∈ l := by
  induction l with
  | nil => simp [aget] at h
  | cons p r ih =>
      by_cases hp : p.1 = k
      · simp [aget, hp] at h
        have hpv : p = (k, v) := by
          cases p
          simp_all
        rw [← hpv]
        exact List.mem_cons_self _ _
      · simp [aget, hp] at h
        exact List.mem_cons_of_mem _ (ih h)

theorem aget_isSome_iff {α β : Type} [DecidableEq α] (l : List (α × β)) (k : α) :
    (aget l k).isSome = true ↔ k ∈ akeys l := by
  induction l with
  | nil => simp [aget, akeys_nil]
  | cons p r ih =>
      by_cases hp : p.1 = k
      · simp [aget, akeys_cons, hp]
      · rw [akeys_cons, List.mem_cons]
        simp only [aget, hp, if_false]
        rw [ih]
        constructor
        · exact Or.inr
        · rintro (h | h)
          · exact absurd h.symm hp
          · exact h

theorem aget_mem_nodup {α β : Type} [DecidableEq α] {l : List (α × β)} {k : α} {v : β}
    (hn : (akeys l).Nodup) (hm : (k, v) ∈ l) : aget l k = some v := by
  induction l with
  | nil => simp at hm
  | cons p r ih =>
      rw [akeys_cons, List.nodup_cons] at hn
      rcases List.mem_cons.mp hm with h | h
      · rw [← h]
        simp [aget]
      · have hk : k ∈ akeys r := List.mem_map_of_mem Prod.fst h
        have hp : p.1 ≠ k := fun he => hn.1 (he ▸ hk)
        simp [aget, hp]
        exact ih hn.2 h

theorem akeys_aset_of_mem {α β : Type} [DecidableEq α] {l : List (α × β)} {k : α}
    (v : β) (h : k ∈ akeys l) : akeys (aset l k v) = akeys l := by
  induction l with
  | nil => simp [akeys_nil] at h
  | cons p r ih =>
      by_cases hp : p.1 = k
      · simp [aset, akeys_cons, hp]
      · have hr : k ∈ akeys r := by
          rcases List.mem_cons.mp (by rwa [akeys_cons] at h) with h' | h'
          · exact absurd h'.symm hp
          · exact h'
        simp only [aset, hp, if_false, akeys_cons]
        rw [ih hr]

theorem akeys_aset_of_not_mem {α β : Type} [DecidableEq α] {l : List (α × β)} {k : α}
    (v : β) (h : k ∉ akeys l) : akeys (aset l k v) = akeys l ++ [k] := by
  induction l with
  | nil => simp [aset, akeys]
  | cons p r ih =>
      have hp : p.1 ≠ k := by
        intro he
        exact h (by rw [akeys_cons, he]; exact List.mem_cons_self _ _)
      have hr : k ∉ akeys r := by
        intro he
        exact h (by rw [akeys_cons]; exact List.mem_cons_of_mem _ he)
      simp only [aset, hp, if_false, akeys_cons]
      rw [ih hr]
      simp

theorem nodup_akeys_aset {α β : Type} [DecidableEq α] {l : List (α × β)} {k : α}
    (v : β) (hn : (akeys l).Nodup) : (akeys (aset l k v)).Nodup := by
  by_cases h : k ∈ akeys l
  · rw [akeys_aset_of_mem v h]
    exact hn
  · rw [akeys_aset_of_not_mem v h]
    rw [List.nodup_append]
    exact ⟨hn, List.nodup_singleton _, by simpa using h⟩

theorem aget_filter {α β : Type} [DecidableEq α] {l : List (α × β)}
    {f : α × β → Bool} {k : α} {v : β} (h : aget (l.filter f) k = some v) :
    f (k, v) = true := by
  induction l with
  | nil => simp [aget] at h
  | cons p r ih =>
      by_cases hf : f p = true
      · rw [List.filter_cons_of_pos hf] at h
        by_cases hp : p.1 = k
        · simp [aget, hp] at h
          have hpv : p = (k, v) := by
            cases p
            simp_all
          rw [← hpv]
          exact hf
        · simp [aget, hp] at h
          exact ih h
      · rw [List.filter_cons_of_neg (by simpa using hf)] at h
        exact ih h

/-! ### Ghost-scan lemmas -/

theorem scoreOf_pos {ithr dthr : ℚ} {g : GhostTrack} {b : Bbox}
    (hthr : 0 < ithr) (hc : matchCriteria ithr dthr g b) :
    0 < scoreOf dthr g b := by
  have h1 : 0 < 6 / 10 * g.calculate_iou b :=
    mul_pos (by norm_num) (lt_of_lt_of_le hthr hc.1)
  have h2 : 0 ≤ 4 / 10 * max 0 (1 - g.calculate_distance b / dthr) :=
    mul_nonneg (by norm_num) (le_max_left 0 _)
  unfold scoreOf
  linarith

theorem bestStep_used {ithr dthr : ℚ} {used : Finset ℤ} {b : Bbox}
    {acc : Option (ℤ × ℚ)} {p : ℤ × GhostTrack} (h1 : p.1 ∈ used) :
    bestStep ithr dthr used b acc p = acc := by
  simp [bestStep, h1]

theorem bestStep_nocrit {ithr dthr : ℚ} {used : Finset ℤ} {b : Bbox}
    {acc : Option (ℤ × ℚ)} {p : ℤ × GhostTrack} (h1 : p.1 ∉ used)
    (h2 : ¬ matchCriteria ithr dthr p.2 b) :
    bestStep ithr dthr used b acc p = acc := by
  simp [bestStep, h1, h2]

theorem bestStep_lt {ithr dthr : ℚ} {used : Finset ℤ} {b : Bbox}
    {acc : Option (ℤ × ℚ)} {p : ℤ × GhostTrack} (h1 : p.1 ∉ used)
    (h2 : matchCriteria ithr dthr p.2 b)
    (h3 : bestScoreOpt acc < scoreOf dthr p.2 b) :
    bestStep ithr dthr used b acc p = some (p.1, scoreOf dthr p.2 b) := by
  simp [bestStep, h1, h2, h3]

theorem bestStep_ge {ithr dthr : ℚ} {used : Finset ℤ} {b : Bbox}
    {acc : Option (ℤ × ℚ)} {p : ℤ × GhostTrack} (h1 : p.1 ∉ used)
    (h2 : matchCriteria ithr dthr p.2 b)
    (h3 : ¬ bestScoreOpt acc < scoreOf dthr p.2 b) :
    bestStep ithr dthr used b acc p = acc := by
  simp [bestStep, h1, h2, h3]

theorem bestStep_mono (ithr dthr : ℚ) (used : Finset ℤ) (b : Bbox)
    (acc : Option (ℤ × ℚ)) (p : ℤ × GhostTrack) :
    bestScoreOpt acc ≤ bestScoreOpt (bestStep ithr dthr used b acc p) := by
  by_cases h1 : p.1 ∈ used
  · rw [bestStep_used h1]
  · by_cases h2 : matchCriteria ithr dthr p.2 b
    · by_cases h3 : bestScoreOpt acc < scoreOf dthr p.2 b
      · rw [bestStep_lt h1 h2 h3]
        exact le_of_lt h3
      · rw [bestStep_ge h1 h2 h3]
    · rw [bestStep_nocrit h1 h2]

theorem foldBest_mono (ithr dthr : ℚ) (used : Finset ℤ) (b : Bbox)
    (l : List (ℤ × GhostTrack)) (acc : Option (ℤ × ℚ)) :
    bestScoreOpt acc ≤ bestScoreOpt (l.foldl (bestStep ithr dthr used b) acc) := by
  induction l generalizing acc with
  | nil => simp
  | cons q r ih =>
      rw [List.foldl_cons]
      exact le_trans (bestStep_mono ithr dthr used b acc q) (ih _)

theorem foldBest_ub (ithr dthr : ℚ) (used : Finset ℤ) (b : Bbox)
    (l : List (ℤ × GhostTrack)) (acc : Option (ℤ × ℚ)) :
    ∀ p ∈ l, p.1 ∉ used → matchCriteria ithr dthr p.2 b →
      scoreOf dthr p.2 b ≤ bestScoreOpt (l.foldl (bestStep ithr dthr used b) acc) := by
  induction l generalizing acc with
  | nil => intro p hp; simp at hp
  | cons q r ih =>
      intro p hp hu hc
      rw [List.foldl_cons]
      rcases List.mem_cons.mp hp with h | h
      · subst h
        refine le_trans ?_ (foldBest_mono ithr dthr used b r _)
        by_cases h3 : bestScoreOpt acc < scoreOf dthr p.2 b
        · rw [bestStep_lt hu hc h3]
          simp [bestScoreOpt]
        · rw [bestStep_ge hu hc h3]
          exact not_lt.mp h3
      · exact ih _ p h hu hc

theorem foldBest_split (ithr dthr : ℚ) (used : Finset ℤ) (b : Bbox)
    (l : List (ℤ × GhostTrack)) (acc : Option (ℤ × ℚ)) (gid : ℤ) (s : ℚ)
    (h : l.foldl (bestStep ithr dthr used b) acc = some (gid, s)) :
    acc = some (gid, s) ∨
      ∃ l₁ g l₂, l = l₁ ++ (gid, g) :: l₂ ∧ gid ∉ used ∧
        matchCriteria ithr dthr g b ∧ s = scoreOf dthr g b ∧
        bestScoreOpt (l₁.foldl (bestStep ithr dthr used b) acc) < s := by
  induction l generalizing acc with
  | nil => exact Or.inl h
  | cons q r ih =>
      rw [List.foldl_cons] at h
      rcases ih _ h with hl | ⟨l₁, g, l₂, heq, hu, hc, hs, hlt⟩
      · by_cases h1 : q.1 ∈ used
        · rw [bestStep_used h1] at hl
          exact Or.inl hl
        · by_cases h2 : matchCriteria ithr dthr q.2 b
          · by_cases h3 : bestScoreOpt acc < scoreOf dthr q.2 b
            · rw [bestStep_lt h1 h2 h3] at hl
              have hgid : q.1 = gid := by
                have := congrArg (fun o => (Option.getD o (0, 0)).1) hl
                simpa using this
              have hsc : scoreOf dthr q.2 b = s := by
                have := congrArg (fun o => (Option.getD o (0, 0)).2) hl
                simpa using this
              refine Or.inr ⟨[], q.2, r, ?_, ?_, h2, hsc.symm, ?_⟩
              · rw [← hgid]
                simp
              · rw [← hgid]
                exact h1
              · simp only [List.foldl_nil]
                rw [← hsc]
                exact h3
            · rw [bestStep_ge h1 h2 h3] at hl
              exact Or.inl hl
          · rw [bestStep_nocrit h1 h2] at hl
            exact Or.inl hl
      · refine Or.inr ⟨q :: l₁, g, l₂, by rw [heq]; rfl, hu, hc, hs, ?_⟩
        rwa [List.foldl_cons]

theorem foldBest_keep (ithr dthr : ℚ) (used : Finset ℤ) (b : Bbox)
    (l : List (ℤ × GhostTrack)) (acc : Option (ℤ × ℚ))
    (h : ∀ q ∈ l, q.1 ∉ used → matchCriteria ithr dthr q.2 b →
      scoreOf dthr q.2 b ≤ bestScoreOpt acc) :
    l.foldl (bestStep ithr dthr used b) acc = acc := by
  induction l with
  | nil => rfl
  | cons q r ih =>
      rw [List.foldl_cons]
      have hstep : bestStep ithr dthr used b acc q = acc := by
        by_cases h1 : q.1 ∈ used
        · exact bestStep_used h1
        · by_cases h2 : matchCriteria ithr dthr q.2 b
          · exact bestStep_ge h1 h2 (not_lt_of_le (h q (List.mem_cons_self _ _) h1 h2))
          · exact bestStep_nocrit h1 h2
      rw [hstep]
      exact ih fun q' hq' => h q' (List.mem_cons_of_mem _ hq')

/-! ### Tracker theorems -/

theorem mem_aerase {α β : Type} [DecidableEq α] {l : List (α × β)} {k : α}
    {q : α × β} (h : q ∈ aerase l k) : q ∈ l :=
  (List.mem_filter.mp h).1

theorem mem_expire {ghosts : List (ℤ × GhostTrack)} {fc gbf : ℕ} {gid : ℤ}
    {g : GhostTrack} :
    (gid, g) ∈ expire ghosts fc gbf ↔
      (gid, g) ∈ ghosts ∧ (fc : ℤ) - (g.last_seen_frame : ℤ) ≤ (gbf : ℤ) := by
  simp [expire, List.mem_filter]

theorem processDetection_spec (ithr dthr : ℚ) (last : Finset ℤ) (fc : ℕ)
    (st : MatchState) (b : Bbox) (tid : ℤ)
    (hbr : (tid ≠ -1 ∧ tid ∉ last) ∨ suspiciousFlag ithr dthr st.ghosts tid b = true) :
    (findBestGhost ithr dthr st.ghosts st.used b = none →
      (processDetection ithr dthr last fc st b tid).ids = st.ids ++ [tid] ∧
      (processDetection ithr dthr last fc st b tid).ghosts = st.ghosts ∧
      (processDetection ithr dthr last fc st b tid).used = st.used) ∧
    (∀ gid s, findBestGhost ithr dthr st.ghosts st.used b = some (gid, s) →
      (processDetection ithr dthr last fc st b tid).ids = st.ids ++ [gid] ∧
      (processDetection ithr dthr last fc st b tid).ghosts = aerase st.ghosts gid ∧
      (processDetection ithr dthr last fc st b tid).used = insert gid st.used) := by
  constructor
  · intro hfb
    simp only [processDetection]
    rw [if_pos hbr, hfb]
    exact ⟨rfl, rfl, rfl⟩
  · intro gid s hfb
    simp only [processDetection]
    rw [if_pos hbr, hfb]
    exact ⟨rfl, rfl, rfl⟩

/-- Claim C2: for a detection whose provisional id is genuinely new (not
in `last_frame_active_ids`) or flagged as a suspicious reassignment, the
tracker scans the not-yet-reclaimed ghosts satisfying
`iou ≥ ghost_iou_threshold ∧ distance ≤ ghost_distance_threshold`,
scored by `scoreOf` (`0.6·iou + 0.4·(1 − distance/threshold)`): if no
candidate qualifies the provisional id is kept and the buffer is
untouched; otherwise the output id is rewritten to a qualifying ghost of
maximal score, that ghost is removed from the buffer and marked used, so
each ghost is reclaimed by at most one detection per frame.  (Stated
for a positive IoU threshold; the shipped default is `0.3`.) -/
theorem C2_ghost_reclaim (ithr dthr : ℚ) (hthr : 0 < ithr) (last : Finset ℤ)
    (fc : ℕ) (st : MatchState) (b : Bbox) (tid : ℤ)
    (hbr : (tid ≠ -1 ∧ tid ∉ last) ∨ suspiciousFlag ithr dthr st.ghosts tid b = true) :
    ((∀ p ∈ st.ghosts, p.1 ∉ st.used → ¬ matchCriteria ithr dthr p.2 b) →
      (processDetection ithr dthr last fc st b tid).ids = st.ids ++ [tid] ∧
      (processDetection ithr dthr last fc st b tid).ghosts = st.ghosts ∧
      (processDetection ithr dthr last fc st b tid).used = st.used) ∧
    ((∃ p ∈ st.ghosts, p.1 ∉ st.used ∧ matchCriteria ithr dthr p.2 b) →
      ∃ gid g, (gid, g) ∈ st.ghosts ∧ gid ∉ st.used ∧
        matchCriteria ithr dthr g b ∧
        (∀ q ∈ st.ghosts, q.1 ∉ st.used → matchCriteria ithr dthr q.2 b →
          scoreOf dthr q.2 b ≤ scoreOf dthr g b) ∧
        (processDetection ithr dthr last fc st b tid).ids = st.ids ++ [gid] ∧
        (processDetection ithr dthr last fc st b tid).used = insert gid st.used ∧
        (processDetection ithr dthr last fc st b tid).ghosts = aerase st.ghosts gid) := by
  cases hfb : findBestGhost ithr dthr st.ghosts st.used b with
  | none =>
      have hspec := (processDetection_spec ithr dthr last fc st b tid hbr).1 hfb
      have hfb' := hfb
      unfold findBestGhost at hfb'
      constructor
      · intro _
        exact hspec
      · rintro ⟨p, hp, hu, hc⟩
        exfalso
        have hub := foldBest_ub ithr dthr st.used b st.ghosts none p hp hu hc
        rw [hfb'] at hub
        have hpos := scoreOf_pos hthr hc
        simp [bestScoreOpt] at hub
        linarith
  | some pr =>
      obtain ⟨gid, s⟩ := pr
      have hspec := (processDetection_spec ithr dthr last fc st b tid hbr).2 gid s hfb
      have hfb' := hfb
      unfold findBestGhost at hfb'
      rcases foldBest_split ithr dthr st.used b st.ghosts none gid s hfb' with h |
        ⟨l₁, g, l₂, heq, hu, hc, hs, -⟩
      · simp at h
      · have hmemg : (gid, g) ∈ st.ghosts := by
          rw [heq]
          exact List.mem_append_right _ (List.mem_cons_self _ _)
        constructor
        · intro hnone
          exact absurd hc (hnone (gid, g) hmemg hu)
        · intro _
          refine ⟨gid, g, hmemg, hu, hc, ?_, hspec.1, hspec.2.2, hspec.2.1⟩
          intro q hq hqu hqc
          have hub := foldBest_ub ithr dthr st.used b st.ghosts none q hq hqu hqc
          rw [hfb'] at hub
          simp [bestScoreOpt] at hub
          rw [← hs]
          exact hub

/-- Witness for C2: one unclaimed qualifying ghost (id 4, exactly at the
detection's box); the provisional id 8 is rewritten to 4 and the ghost
is removed from the buffer. -/
theorem C2_ghost_reclaim_witness :
    (processDetection (3/10) 150 (∅ : Finset ℤ) 1 c2state boxA 8).ids = [4] ∧
    (processDetection (3/10) 150 (∅ : Finset ℤ) 1 c2state boxA 8).ghosts = [] := by
  have h := (C2_ghost_reclaim (3/10) 150 (by norm_num) ∅ 1 c2state boxA 8
      (Or.inl ⟨by decide, by simp⟩)).2
      ⟨(4, mkGhost boxA 0), by with_unfolding_all decide,
        by simp [c2state], by with_unfolding_all decide⟩
  obtain ⟨gid, g, hmem, -, -, -, hids, -, hg⟩ := h
  have hgid : gid = 4 := by
    have hm : (gid, g) ∈ c2state.ghosts := hmem
    simp [c2state] at hm
    exact hm.1
  subst hgid
  constructor
  · rw [hids]
    rfl
  · rw [hg]
    with_unfolding_all decide

set_option maxHeartbeats 2000000 in
/-- Claim C8 is false on the code: in the buffer reached by the run
`c8run` the two ghosts 5 (inserted first) and 3 tie on the exactly equal
highest matching score for the detection at `boxC`, yet the detection is
matched to ghost 5, not to the smaller TrackId 3. -/
theorem C8_counterexample :
    c8run.ghost_tracks = [(5, mkGhost boxA 1), (3, mkGhost boxB 2)] ∧
    matchCriteria c8run.ghost_iou_threshold c8run.ghost_distance_threshold
      (mkGhost boxA 1) boxC ∧
    matchCriteria c8run.ghost_iou_threshold c8run.ghost_distance_threshold
      (mkGhost boxB 2) boxC ∧
    scoreOf c8run.ghost_distance_threshold (mkGhost boxA 1) boxC
      = scoreOf c8run.ghost_distance_threshold (mkGhost boxB 2) boxC ∧
    (3 : ℤ) < 5 ∧
    (update_with_detections c8run [(boxC, 9)]).2 = [5] := by
  with_unfolding_all decide

/-- Claim C8 (amended): when two ghosts tie on the exactly equal highest
matching score for one detection, the ghost scan picks the one that was
inserted into the buffer first (iteration order of the ghost dict), not
the one with the smaller TrackId. -/
theorem C8_tie_first_insertion (ithr dthr : ℚ) (hthr : 0 < ithr) (used : Finset ℤ)
    (b : Bbox) (l₁ l₂ l₃ : List (ℤ × GhostTrack)) (gid₁ gid₂ : ℤ)
    (g₁ g₂ : GhostTrack)
    (hu₁ : gid₁ ∉ used) (hc₁ : matchCriteria ithr dthr g₁ b)
    (hu₂ : gid₂ ∉ used) (hc₂ : matchCriteria ithr dthr g₂ b)
    (heq : scoreOf dthr g₁ b = scoreOf dthr g₂ b)
    (hmax : ∀ q ∈ l₁ ++ (gid₁, g₁) :: (l₂ ++ (gid₂, g₂) :: l₃), q.1 ∉ used →
      matchCriteria ithr dthr q.2 b → scoreOf dthr q.2 b ≤ scoreOf dthr g₁ b)
    (hfirst : ∀ q ∈ l₁, q.1 ∉ used → matchCriteria ithr dthr q.2 b →
      scoreOf dthr q.2 b < scoreOf dthr g₁ b) :
    findBestGhost ithr dthr (l₁ ++ (gid₁, g₁) :: (l₂ ++ (gid₂, g₂) :: l₃)) used b
      = some (gid₁, scoreOf dthr g₁ b) := by
  unfold findBestGhost
  rw [List.foldl_append, List.foldl_cons]
  have hlt : bestScoreOpt (l₁.foldl (bestStep ithr dthr used b) none)
      < scoreOf dthr g₁ b := by
    cases hres : l₁.foldl (bestStep ithr dthr used b) none with
    | none =>
        simp [bestScoreOpt]
        exact scoreOf_pos hthr hc₁
    | some pr =>
        obtain ⟨k, s⟩ := pr
        rcases foldBest_split ithr dthr used b l₁ none k s hres with h |
          ⟨m₁, g, m₂, hm, hu, hc, hs, -⟩
        · simp at h
        · have hless : scoreOf dthr g b < scoreOf dthr g₁ b :=
            hfirst (k, g) (by rw [hm]; exact List.mem_append_right _ (List.mem_cons_self _ _)) hu hc
          simp only [bestScoreOpt]
          rw [hs]
          exact hless
  rw [@bestStep_lt ithr dthr used b (l₁.foldl (bestStep ithr dthr used b) none)
    (gid₁, g₁) hu₁ hc₁ hlt]
  apply foldBest_keep
  intro q hq hqu hqc
  simp only [bestScoreOpt]
  exact hmax q (List.mem_append_right _ (List.mem_cons_of_mem _ hq)) hqu hqc

/-- Witness for the amended C8: the tied buffer of `c8run` (ghost 5
inserted first, ghost 3 second, equal scores at `boxC`) resolves to
ghost 5. -/
theorem C8_tie_first_insertion_witness :
    findBestGhost (3/10) 150 [(5, mkGhost boxA 1), (3, mkGhost boxB 2)] ∅ boxC
      = some (5, scoreOf 150 (mkGhost boxA 1) boxC) := by
  have h := C8_tie_first_insertion (3/10) 150 (by norm_num) ∅ boxC
    [] [] [] 5 3 (mkGhost boxA 1) (mkGhost boxB 2)
    (by simp) (by with_unfolding_all decide)
    (by simp) (by with_unfolding_all decide)
    (by with_unfolding_all decide)
    (by with_unfolding_all decide)
    (by simp)
  simpa using h

/-- Claim C1 is false on the code: after the run `c1run` (track 1 seen
in frame 1, lost in frame 2) TrackId 1 is simultaneously a key of the
tracker's active mapping and a key of the ghost buffer — the cleanup
step deliberately retains ghost ids in `active_tracks`. -/
theorem C1_counterexample :
    (aget c1run.active_tracks 1).isSome = true ∧
    (aget c1run.ghost_tracks 1).isSome = true := by
  with_unfolding_all decide

/-- Claim C1 (amended): active and ghost keys need not be disjoint;
instead, after every update each key of the active mapping lies in the
final active-id set or in the ghost buffer (the cleanup invariant the
code actually maintains). -/
theorem C1_active_keys_final_or_ghost (t : EnhancedTracker)
    (dets : List (Bbox × ℤ)) (p : ℤ)
    (h : (aget (update_with_detections t dets).1.active_tracks p).isSome = true) :
    p ∈ (update_with_detections t dets).1.last_frame_active_ids ∨
      (aget (update_with_detections t dets).1.ghost_tracks p).isSome = true := by
  by_cases hd : dets = []
  · subst hd
    simp only [update_with_detections, if_pos] at h ⊢
    obtain ⟨v, hv⟩ := Option.isSome_iff_exists.mp h
    have hf := aget_filter hv
    simp only [Bool.or_eq_true, decide_eq_true_eq] at hf
    exact hf
  · simp only [update_with_detections, if_neg hd] at h ⊢
    obtain ⟨v, hv⟩ := Option.isSome_iff_exists.mp h
    have hf := aget_filter hv
    simp only [Bool.or_eq_true, decide_eq_true_eq] at hf
    exact hf

/-- Witness for the amended C1: at the concrete run `c1run` the retained
key 1 is indeed in the ghost buffer. -/
theorem C1_active_keys_final_or_ghost_witness :
    1 ∈ (update_with_detections (update_with_detections {} [(boxA, 1)]).1 []).1.last_frame_active_ids ∨
      (aget (update_with_detections (update_with_detections {} [(boxA, 1)]).1 []).1.ghost_tracks 1).isSome = true :=
  C1_active_keys_final_or_ghost (update_with_detections {} [(boxA, 1)]).1 [] 1
    (by with_unfolding_all decide)

theorem processDetection_ghosts_sub (ithr dthr : ℚ) (last : Finset ℤ) (fc : ℕ)
    (st : MatchState) (b : Bbox) (tid : ℤ) :
    ∀ q ∈ (processDetection ithr dthr last fc st b tid).ghosts, q ∈ st.ghosts := by
  intro q hq
  simp only [processDetection] at hq
  by_cases hC : (tid ≠ -1 ∧ tid ∉ last) ∨ suspiciousFlag ithr dthr st.ghosts tid b = true
  · rw [if_pos hC] at hq
    cases hfb : findBestGhost ithr dthr st.ghosts st.used b with
    | none =>
        rw [hfb] at hq
        exact hq
    | some pr =>
        obtain ⟨gid, s⟩ := pr
        rw [hfb] at hq
        exact mem_aerase hq
  · rw [if_neg hC] at hq
    exact hq

theorem mem_ite_log {c : Prop} [Decidable c] {l m : List TrackEvent} {e : TrackEvent}
    (h : e ∈ if c then l ++ m else l) : e ∈ l ∨ e ∈ m := by
  by_cases hc : c
  · rw [if_pos hc] at h
    exact List.mem_append.mp h
  · rw [if_neg hc] at h
    exact Or.inl h

theorem processDetection_restored (ithr dthr : ℚ) (last : Finset ℤ) (fc : ℕ)
    (st : MatchState) (b : Bbox) (tid : ℤ) :
    ∀ fcEv pid rid, TrackEvent.restored fcEv pid rid ∈
        (processDetection ithr dthr last fc st b tid).log →
      TrackEvent.restored fcEv pid rid ∈ st.log ∨ ∃ g, (rid, g) ∈ st.ghosts := by
  intro fcEv pid rid hmem
  simp only [processDetection] at hmem
  by_cases hC : (tid ≠ -1 ∧ tid ∉ last) ∨ suspiciousFlag ithr dthr st.ghosts tid b = true
  · rw [if_pos hC] at hmem
    cases hfb : findBestGhost ithr dthr st.ghosts st.used b with
    | none =>
        rw [hfb] at hmem
        rw [List.mem_append] at hmem
        rcases hmem with h | h
        · rw [List.mem_append] at h
          rcases h with h | h
          · rcases mem_ite_log h with h' | h'
            · exact Or.inl h'
            · simp at h'
          · simp at h
        · simp at h
    | some pr =>
        obtain ⟨gid, s⟩ := pr
        rw [hfb] at hmem
        rw [List.mem_append] at hmem
        rcases hmem with h | h
        · rw [List.mem_append] at h
          rcases h with h | h
          · rcases mem_ite_log h with h' | h'
            · exact Or.inl h'
            · simp at h'
          · simp at h
        · have hrid : rid = gid := by
            simp at h
            exact h.2.2
          subst hrid
          have hfb' := hfb
          unfold findBestGhost at hfb'
          rcases foldBest_split ithr dthr st.used b st.ghosts none rid s hfb' with h' |
            ⟨l₁, g, l₂, heq, -, -, -, -⟩
          · simp at h'
          · exact Or.inr ⟨g, by
              rw [heq]
              exact List.mem_append_right _ (List.mem_cons_self _ _)⟩
  · rw [if_neg hC] at hmem
    rw [List.mem_append] at hmem
    rcases hmem with h | h
    · rcases mem_ite_log h with h' | h'
      · exact Or.inl h'
      · simp at h'
    · simp at h

theorem matchFold_restored (ithr dthr : ℚ) (last : Finset ℤ) (fc : ℕ)
    (dets : List (Bbox × ℤ)) :
    ∀ st : MatchState,
      (∀ q ∈ (dets.foldl
          (fun s d => processDetection ithr dthr last fc s d.1 d.2) st).ghosts,
        q ∈ st.ghosts) ∧
      (∀ fcEv pid rid, TrackEvent.restored fcEv pid rid ∈
          (dets.foldl (fun s d => processDetection ithr dthr last fc s d.1 d.2) st).log →
        TrackEvent.restored fcEv pid rid ∈ st.log ∨ ∃ g, (rid, g) ∈ st.ghosts) := by
  induction dets with
  | nil => exact fun st => ⟨fun q hq => hq, fun fcEv pid rid h => Or.inl h⟩
  | cons d r ih =>
      intro st
      constructor
      · intro q hq
        rw [List.foldl_cons] at hq
        exact processDetection_ghosts_sub ithr dthr last fc st d.1 d.2 q
          ((ih _).1 q hq)
      · intro fcEv pid rid hmem
        rw [List.foldl_cons] at hmem
        rcases (ih _).2 fcEv pid rid hmem with h | ⟨g, hg⟩
        · exact processDetection_restored ithr dthr last fc st d.1 d.2 fcEv pid rid h
        · have := processDetection_ghosts_sub ithr dthr last fc st d.1 d.2 _ hg
          exact Or.inr ⟨g, this⟩

theorem matchFold_empty_ghosts (ithr dthr : ℚ) (last : Finset ℤ) (fc : ℕ)
    (dets : List (Bbox × ℤ)) :
    ∀ st : MatchState, st.ghosts = [] →
      (dets.foldl (fun s d => processDetection ithr dthr last fc s d.1 d.2) st).ids
        = st.ids ++ dets.map Prod.snd ∧
      (dets.foldl (fun s d => processDetection ithr dthr last fc s d.1 d.2) st).ghosts
        = [] := by
  induction dets with
  | nil => intro st hg; exact ⟨by simp, hg⟩
  | cons d r ih =>
      intro st hg
      rw [List.foldl_cons]
      have hstep : (processDetection ithr dthr last fc st d.1 d.2).ids
            = st.ids ++ [d.2] ∧
          (processDetection ithr dthr last fc st d.1 d.2).ghosts = [] := by
        simp only [processDetection]
        by_cases hC : (d.2 ≠ -1 ∧ d.2 ∉ last) ∨
            suspiciousFlag ithr dthr st.ghosts d.2 d.1 = true
        · rw [if_pos hC]
          have hfb : findBestGhost ithr dthr st.ghosts st.used d.1 = none := by
            unfold findBestGhost
            rw [hg]
            rfl
          rw [hfb]
          exact ⟨rfl, hg⟩
        · rw [if_neg hC]
          exact ⟨rfl, hg⟩
      obtain ⟨h1, h2⟩ := ih _ hstep.2
      rw [h1, hstep.1]
      refine ⟨?_, h2⟩
      simp

/-- Claim C3: (i) the expiry step run before matching keeps exactly the
ghosts aged at most `ghost_buffer_frames`; (ii) every id restored by an
update comes from the post-expiry buffer `matchGhosts`, hence from a
ghost aged at most `ghost_buffer_frames` — an over-aged ghost is never
matched; (iii) if every buffered ghost is over-aged (in particular one
aged `ghost_buffer_frames + 1`) and no track is lost this frame, every
detection — including one placed exactly at a ghost's prior position —
keeps its provisional (new) TrackId and no `ID_RESTORED_FROM_GHOST`
record is emitted. -/
theorem C3_ghost_expiry :
    (∀ (ghosts : List (ℤ × GhostTrack)) (fc gbf : ℕ) (gid : ℤ) (g : GhostTrack),
      ((gid, g) ∈ expire ghosts fc gbf ↔
        (gid, g) ∈ ghosts ∧ (fc : ℤ) - (g.last_seen_frame : ℤ) ≤ (gbf : ℤ))) ∧
    (∀ (t : EnhancedTracker) (dets : List (Bbox × ℤ)) (fcEv : ℕ) (pid rid : ℤ),
      TrackEvent.restored fcEv pid rid ∈ (update_with_detections t dets).1.tracking_log →
      TrackEvent.restored fcEv pid rid ∈ t.tracking_log ∨
        ∃ g, (rid, g) ∈ matchGhosts t dets ∧
          ((t.frame_count : ℤ) + 1 - (g.last_seen_frame : ℤ) ≤ (t.ghost_buffer_frames : ℤ))) ∧
    (∀ (t : EnhancedTracker) (dets : List (Bbox × ℤ)),
      (∀ (gid : ℤ) (g : GhostTrack), (gid, g) ∈ t.ghost_tracks →
        (t.ghost_buffer_frames : ℤ) < (t.frame_count : ℤ) + 1 - (g.last_seen_frame : ℤ)) →
      t.last_frame_active_ids ⊆ currentIds dets →
      (update_with_detections t dets).2 = dets.map Prod.snd ∧
      (∀ (fcEv : ℕ) (pid rid : ℤ),
        TrackEvent.restored fcEv pid rid ∈ (update_with_detections t dets).1.tracking_log →
        TrackEvent.restored fcEv pid rid ∈ t.tracking_log)) := by
  refine ⟨fun ghosts fc gbf gid g => mem_expire, ?_, ?_⟩
  · intro t dets fcEv pid rid hmem
    by_cases hd : dets = []
    · subst hd
      simp only [update_with_detections, if_pos] at hmem
      exact Or.inl hmem
    · simp only [update_with_detections, if_neg hd] at hmem
      have hfold := (matchFold_restored t.ghost_iou_threshold t.ghost_distance_threshold
        t.last_frame_active_ids (t.frame_count + 1) dets
        ⟨[], ∅, matchGhosts t dets, updActive t.active_tracks dets, t.tracking_log⟩).2
        fcEv pid rid hmem
      rcases hfold with h | ⟨g, hg⟩
      · exact Or.inl h
      · refine Or.inr ⟨g, hg, ?_⟩
        have hage := (mem_expire.mp (show (rid, g) ∈ expire
            (promote t.ghost_tracks (updActive t.active_tracks dets)
              ((t.last_frame_active_ids \ currentIds dets).sort (· ≤ ·))
              (t.frame_count + 1))
            (t.frame_count + 1) t.ghost_buffer_frames from hg)).2
        push_cast at hage ⊢
        linarith
  · intro t dets hage hsub
    have hlost : t.last_frame_active_ids \ currentIds dets = ∅ :=
      Finset.sdiff_eq_empty_iff_subset.mpr hsub
    have hpromote : matchGhosts t dets = expire t.ghost_tracks (t.frame_count + 1)
        t.ghost_buffer_frames := by
      simp only [matchGhosts, hlost, Finset.sort_empty, promote, List.foldl_nil]
    have hexpire : matchGhosts t dets = [] := by
      rw [hpromote]
      unfold expire
      rw [List.filter_eq_nil_iff]
      intro p hp
      have hp' := hage p.1 p.2 hp
      simp only [decide_eq_true_eq]
      push_cast at hp' ⊢
      intro hle
      linarith
    by_cases hd : dets = []
    · subst hd
      constructor
      · simp only [update_with_detections, if_pos]
        rfl
      · intro fcEv pid rid hmem
        simp only [update_with_detections, if_pos] at hmem
        exact hmem
    · have hfold := matchFold_empty_ghosts t.ghost_iou_threshold
        t.ghost_distance_threshold t.last_frame_active_ids (t.frame_count + 1) dets
        ⟨[], ∅, matchGhosts t dets, updActive t.active_tracks dets, t.tracking_log⟩
        hexpire
      constructor
      · simp only [update_with_detections, if_neg hd]
        rw [show ([] : List ℤ) ++ dets.map Prod.snd = dets.map Prod.snd from by simp] at hfold
        exact hfold.1
      · intro fcEv pid rid hmem
        simp only [update_with_detections, if_neg hd] at hmem
        rcases (matchFold_restored t.ghost_iou_threshold t.ghost_distance_threshold
            t.last_frame_active_ids (t.frame_count + 1) dets
            ⟨[], ∅, matchGhosts t dets, updActive t.active_tracks dets, t.tracking_log⟩).2
            fcEv pid rid hmem with h | ⟨g, hg⟩
        · exact h
        · rw [hexpire] at hg
          simp at hg

/-- Witness for C3: a tracker holding a single ghost of age
`101 > ghost_buffer_frames = 90`, facing a detection at the ghost's
exact stored box: the new provisional id 7 is kept and no restoration
is logged. -/
theorem C3_ghost_expiry_witness :
    (update_with_detections c3tracker [(boxA, 7)]).2 = [7] ∧
    (∀ (fcEv : ℕ) (pid rid : ℤ),
      TrackEvent.restored fcEv pid rid ∈
        (update_with_detections c3tracker [(boxA, 7)]).1.tracking_log →
      TrackEvent.restored fcEv pid rid ∈ c3tracker.tracking_log) := by
  have h := C3_ghost_expiry.2.2 c3tracker [(boxA, 7)]
    (by
      intro gid g hmem
      simp [c3tracker] at hmem
      rw [hmem.2]
      simp [c3tracker, mkGhost])
    (by
      intro x hx
      simp [c3tracker] at hx)
  exact ⟨h.1, h.2⟩

/-! ### Zone-engine lemmas -/

theorem aget_aset2_ne_z (m : List (ℕ × List (ℤ × ℚ))) (z z' : ℕ) (p : ℤ) (v : ℚ)
    (h : z ≠ z') : aget (aset2 m z p v) z' = aget m z' := by
  unfold aset2
  exact aget_aset_ne _ _ _ _ h

theorem agetD_aset2_eq (m : List (ℕ × List (ℤ × ℚ))) (z : ℕ) (p : ℤ) (v : ℚ) :
    agetD (aset2 m z p v) z [] = aset (agetD m z []) p v := by
  unfold aset2 agetD
  rw [aget_aset_eq]
  rfl

theorem aget2_aset2_eq (m : List (ℕ × List (ℤ × ℚ))) (z : ℕ) (p : ℤ) (v : ℚ) :
    aget (agetD (aset2 m z p v) z []) p = some v := by
  rw [agetD_aset2_eq]
  exact aget_aset_eq _ _ _

theorem aget2_aset2_ne_p (m : List (ℕ × List (ℤ × ℚ))) (z : ℕ) (p p' : ℤ) (v : ℚ)
    (h : p ≠ p') :
    aget (agetD (aset2 m z p v) z []) p' = aget (agetD m z []) p' := by
  rw [agetD_aset2_eq]
  exact aget_aset_ne _ _ _ _ h

theorem aset2_isSome (m : List (ℕ × List (ℤ × ℚ))) (z : ℕ) (p : ℤ) (v : ℚ) :
    (aget (aset2 m z p v) z).isSome = true := by
  unfold aset2
  rw [aget_aset_eq]
  rfl

theorem initialize_zone_obs (zt : ZoneTracker) (z : ℕ) :
    (initialize_zone zt z).fps = zt.fps ∧
    (initialize_zone zt z).frame_count = zt.frame_count ∧
    (initialize_zone zt z).analytics_data = zt.analytics_data ∧
    (∀ z', zEntries (initialize_zone zt z) z' = zEntries zt z') ∧
    (∀ z', zExits (initialize_zone zt z) z' = zExits zt z') ∧
    (∀ z', zDurations (initialize_zone zt z) z' = zDurations zt z') ∧
    (∀ z', zCur (initialize_zone zt z) z' = zCur zt z') ∧
    (aget (initialize_zone zt z).zone_entries z).isSome = true := by
  unfold initialize_zone
  by_cases h : (aget zt.zone_entries z).isSome = true
  · rw [if_pos h]
    exact ⟨rfl, rfl, rfl, fun _ => rfl, fun _ => rfl, fun _ => rfl, fun _ => rfl, h⟩
  · rw [if_neg h]
    have hz : aget zt.zone_entries z = none := by
      cases hc : aget zt.zone_entries z with
      | none => rfl
      | some v => rw [hc] at h; simp at h
    refine ⟨rfl, rfl, rfl, ?_, ?_, ?_, ?_, ?_⟩
    · intro z'
      unfold zEntries agetD
      cases hc : aget zt.zone_entries z' with
      | some v => rw [aget_append_of_some _ hc]
      | none =>
          rw [aget_append_of_none _ hc]
          by_cases hzz : z = z'
          · simp [aget, hzz]
          · simp [aget, hzz]
    · intro z'
      unfold zExits agetD
      cases hc : aget zt.zone_exits z' with
      | some v => rw [aget_append_of_some _ hc]
      | none =>
          rw [aget_append_of_none _ hc]
          by_cases hzz : z = z'
          · simp [aget, hzz]
          · simp [aget, hzz]
    · intro z'
      unfold zDurations agetD
      cases hc : aget zt.zone_durations z' with
      | some v => rw [aget_append_of_some _ hc]
      | none =>
          rw [aget_append_of_none _ hc]
          by_cases hzz : z = z'
          · simp [aget, hzz]
          · simp [aget, hzz]
    · intro z'
      unfold zCur agetD
      cases hc : aget zt.zone_current z' with
      | some v => rw [aget_append_of_some _ hc]
      | none =>
          rw [aget_append_of_none _ hc]
          by_cases hzz : z = z'
          · simp [aget, hzz]
          · simp [aget, hzz]
    · rw [aget_append_of_none _ hz]
      simp [aget]

theorem entryFold_spec (z : ℕ) (fc : ℕ) (fts now : ℚ) (L : List ℤ) :
    ∀ zt : ZoneTracker,
      (L.foldl (processEntry z fc fts now) zt).fps = zt.fps ∧
      (L.foldl (processEntry z fc fts now) zt).frame_count = zt.frame_count ∧
      (L.foldl (processEntry z fc fts now) zt).zone_exits = zt.zone_exits ∧
      (L.foldl (processEntry z fc fts now) zt).zone_durations = zt.zone_durations ∧
      (L.foldl (processEntry z fc fts now) zt).zone_current = zt.zone_current ∧
      (L.foldl (processEntry z fc fts now) zt).analytics_data = zt.analytics_data ++
        L.map (fun p => (⟨now, fc, round2 fts, p, z, ZEventKind.entry, none⟩ : ZoneEvent)) ∧
      (∀ z', z' ≠ z →
        aget (L.foldl (processEntry z fc fts now) zt).zone_entries z'
          = aget zt.zone_entries z') ∧
      (∀ p : ℤ, aget (zEntries (L.foldl (processEntry z fc fts now) zt) z) p
          = if p ∈ L then some now else aget (zEntries zt z) p) ∧
      ((aget zt.zone_entries z).isSome = true →
        (aget (L.foldl (processEntry z fc fts now) zt).zone_entries z).isSome = true) ∧
      ((akeys (zEntries zt z)).Nodup →
        (akeys (zEntries (L.foldl (processEntry z fc fts now) zt) z)).Nodup) := by
  induction L with
  | nil =>
      intro zt
      refine ⟨rfl, rfl, rfl, rfl, rfl, by simp, fun z' _ => rfl, fun p => by simp,
        fun h => h, fun h => h⟩
  | cons q R ih =>
      intro zt
      rw [List.foldl_cons]
      obtain ⟨h1, h2, h3, h4, h5, h6, h7, h8, h9, h10⟩ := ih (processEntry z fc fts now zt q)
      refine ⟨h1, h2, h3, h4, h5, ?_, ?_, ?_, ?_, ?_⟩
      · rw [h6]
        simp only [processEntry, List.map_cons]
        rw [List.append_assoc]
        rfl
      · intro z' hz'
        rw [h7 z' hz']
        simp only [processEntry]
        exact aget_aset2_ne_z _ _ _ _ _ (fun he => hz' he.symm)
      · intro p
        rw [h8 p]
        by_cases hpL : p ∈ q :: R
        · rw [if_pos hpL]
          rcases List.mem_cons.mp hpL with hpq | hpR
          · by_cases hpR' : p ∈ R
            · rw [if_pos hpR']
            · rw [if_neg hpR']
              subst hpq
              simp only [processEntry, zEntries]
              exact aget2_aset2_eq _ _ _ _
          · rw [if_pos hpR]
        · have hpq : p ≠ q := fun he => hpL (he ▸ List.mem_cons_self _ _)
          have hpR : p ∉ R := fun he => hpL (List.mem_cons_of_mem _ he)
          rw [if_neg hpL, if_neg hpR]
          simp only [processEntry, zEntries]
          exact aget2_aset2_ne_p _ _ _ _ _ (fun he => hpq he.symm)
      · intro _
        apply h9
        simp only [processEntry]
        exact aset2_isSome _ _ _ _
      · intro hnd
        apply h10
        simp only [processEntry, zEntries]
        rw [agetD_aset2_eq]
        exact nodup_akeys_aset _ hnd

theorem processExit_base (z fc : ℕ) (fts now : ℚ) (zt : ZoneTracker) (q : ℤ) :
    (processExit z fc fts now zt q).fps = zt.fps ∧
    (processExit z fc fts now zt q).frame_count = zt.frame_count ∧
    (processExit z fc fts now zt q).zone_entries = zt.zone_entries ∧
    (processExit z fc fts now zt q).zone_current = zt.zone_current ∧
    (processExit z fc fts now zt q).zone_exits = aset2 zt.zone_exits z q now := by
  unfold processExit
  cases hq : aget (agetD zt.zone_entries z []) q with
  | none => exact ⟨rfl, rfl, rfl, rfl, rfl⟩
  | some t => exact ⟨rfl, rfl, rfl, rfl, rfl⟩

theorem processExit_some (z fc : ℕ) (fts now : ℚ) (zt : ZoneTracker) (q : ℤ)
    (t : ℚ) (hq : aget (zEntries zt z) q = some t) :
    (processExit z fc fts now zt q).zone_durations
        = aset2 zt.zone_durations z q (agetD (zDurations zt z) q 0 + (now - t)) ∧
    (processExit z fc fts now zt q).analytics_data = zt.analytics_data ++
      [(⟨now, fc, round2 fts, q, z, ZEventKind.leave, some (round2 (now - t))⟩ : ZoneEvent)] := by
  unfold processExit
  unfold zEntries at hq
  rw [hq]
  exact ⟨rfl, rfl⟩

theorem processExit_none (z fc : ℕ) (fts now : ℚ) (zt : ZoneTracker) (q : ℤ)
    (hq : aget (zEntries zt z) q = none) :
    (processExit z fc fts now zt q).zone_durations = zt.zone_durations ∧
    (processExit z fc fts now zt q).analytics_data = zt.analytics_data := by
  unfold processExit
  unfold zEntries at hq
  rw [hq]
  exact ⟨rfl, rfl⟩

theorem exitFold_spec (z : ℕ) (fc : ℕ) (fts now : ℚ) (L : List ℤ) (hL : L.Nodup) :
    ∀ zt : ZoneTracker,
      (L.foldl (processExit z fc fts now) zt).fps = zt.fps ∧
      (L.foldl (processExit z fc fts now) zt).frame_count = zt.frame_count ∧
      (L.foldl (processExit z fc fts now) zt).zone_entries = zt.zone_entries ∧
      (L.foldl (processExit z fc fts now) zt).zone_current = zt.zone_current ∧
      (L.foldl (processExit z fc fts now) zt).analytics_data = zt.analytics_data ++
        L.flatMap (fun q =>
          match aget (zEntries zt z) q with
          | some t =>
              [(⟨now, fc, round2 fts, q, z, ZEventKind.leave,
                some (round2 (now - t))⟩ : ZoneEvent)]
          | none => []) ∧
      (∀ z', z' ≠ z →
        aget (L.foldl (processExit z fc fts now) zt).zone_exits z'
            = aget zt.zone_exits z' ∧
        aget (L.foldl (processExit z fc fts now) zt).zone_durations z'
            = aget zt.zone_durations z') ∧
      (∀ p : ℤ, p ∉ L →
        aget (zExits (L.foldl (processExit z fc fts now) zt) z) p
            = aget (zExits zt z) p ∧
        aget (zDurations (L.foldl (processExit z fc fts now) zt) z) p
            = aget (zDurations zt z) p) ∧
      (∀ p : ℤ, p ∈ L →
        aget (zExits (L.foldl (processExit z fc fts now) zt) z) p = some now ∧
        aget (zDurations (L.foldl (processExit z fc fts now) zt) z) p
            = (match aget (zEntries zt z) p with
               | some t => some (agetD (zDurations zt z) p 0 + (now - t))
               | none => aget (zDurations zt z) p)) ∧
      ((akeys (zExits zt z)).Nodup →
        (akeys (zExits (L.foldl (processExit z fc fts now) zt) z)).Nodup) := by
  induction L with
  | nil =>
      intro zt
      exact ⟨rfl, rfl, rfl, rfl, by simp, fun z' _ => ⟨rfl, rfl⟩,
        fun p _ => ⟨rfl, rfl⟩, fun p hp => absurd hp (List.not_mem_nil p),
        fun h => h⟩
  | cons q R ih =>
      intro zt
      rw [List.nodup_cons] at hL
      rw [List.foldl_cons]
      obtain ⟨g1, g2, g3, g4, g5⟩ := processExit_base z fc fts now zt q
      obtain ⟨h1, h2, h3, h4, h5, h6, h7, h8, h9⟩ := ih hL.2 (processExit z fc fts now zt q)
      have hent : zEntries (processExit z fc fts now zt q) z = zEntries zt z := by
        unfold zEntries
        rw [g3]
      refine ⟨h1.trans g1, h2.trans g2, h3.trans g3, h4.trans g4, ?_, ?_, ?_, ?_, ?_⟩
      · rw [h5]
        rw [List.flatMap_cons]
        simp only [hent]
        cases hq : aget (zEntries zt z) q with
        | some t =>
            obtain ⟨-, ha⟩ := processExit_some z fc fts now zt q t hq
            rw [ha, List.append_assoc]
        | none =>
            obtain ⟨-, ha⟩ := processExit_none z fc fts now zt q hq
            rw [ha]
            simp
      · intro z' hz'
        obtain ⟨e1, e2⟩ := h6 z' hz'
        constructor
        · rw [e1, g5]
          exact aget_aset2_ne_z _ _ _ _ _ (fun he => hz' he.symm)
        · rw [e2]
          cases hq : aget (zEntries zt z) q with
          | some t =>
              obtain ⟨hd, -⟩ := processExit_some z fc fts now zt q t hq
              rw [hd]
              exact aget_aset2_ne_z _ _ _ _ _ (fun he => hz' he.symm)
          | none =>
              obtain ⟨hd, -⟩ := processExit_none z fc fts now zt q hq
              rw [hd]
      · intro p hp
        have hpq : p ≠ q := fun he => hp (he ▸ List.mem_cons_self _ _)
        have hpR : p ∉ R := fun he => hp (List.mem_cons_of_mem _ he)
        obtain ⟨e1, e2⟩ := h7 p hpR
        constructor
        · rw [e1]
          unfold zExits
          rw [g5]
          exact aget2_aset2_ne_p _ _ _ _ _ (fun he => hpq he.symm)
        · rw [e2]
          unfold zDurations
          cases hq : aget (zEntries zt z) q with
          | some t =>
              obtain ⟨hd, -⟩ := processExit_some z fc fts now zt q t hq
              rw [hd]
              exact aget2_aset2_ne_p _ _ _ _ _ (fun he => hpq he.symm)
          | none =>
              obtain ⟨hd, -⟩ := processExit_none z fc fts now zt q hq
              rw [hd]
      · intro p hp
        rcases List.mem_cons.mp hp with hpq | hpR
        · subst hpq
          have hpR : p ∉ R := hL.1
          obtain ⟨e1, e2⟩ := h7 p hpR
          constructor
          · rw [e1]
            unfold zExits
            rw [g5]
            exact aget2_aset2_eq _ _ _ _
          · rw [e2]
            cases hq : aget (zEntries zt z) p with
            | some t =>
                obtain ⟨hd, -⟩ := processExit_some z fc fts now zt p t hq
                unfold zDurations
                rw [hd]
                exact aget2_aset2_eq _ _ _ _
            | none =>
                obtain ⟨hd, -⟩ := processExit_none z fc fts now zt p hq
                unfold zDurations
                rw [hd]
        · obtain ⟨e1, e2⟩ := h8 p hpR
          have hqp : q ≠ p := fun he => hL.1 (he ▸ hpR)
          constructor
          · rw [e1]
          · rw [e2, hent]
            cases hq : aget (zEntries zt z) p with
            | some t =>
                have hbase : agetD (zDurations (processExit z fc fts now zt q) z) p 0
                    = agetD (zDurations zt z) p 0 := by
                  unfold agetD
                  cases hqq : aget (zEntries zt z) q with
                  | some tq =>
                      obtain ⟨hd, -⟩ := processExit_some z fc fts now zt q tq hqq
                      unfold zDurations
                      rw [hd]
                      rw [aget2_aset2_ne_p _ _ _ _ _ hqp]
                  | none =>
                      obtain ⟨hd, -⟩ := processExit_none z fc fts now zt q hqq
                      unfold zDurations
                      rw [hd]
                rw [hbase]
            | none =>
                cases hqq : aget (zEntries zt z) q with
                | some tq =>
                    obtain ⟨hd, -⟩ := processExit_some z fc fts now zt q tq hqq
                    unfold zDurations
                    rw [hd]
                    exact aget2_aset2_ne_p _ _ _ _ _ hqp
                | none =>
                    obtain ⟨hd, -⟩ := processExit_none z fc fts now zt q hqq
                    unfold zDurations
                    rw [hd]
      · intro hnd
        apply h9
        unfold zExits
        rw [g5, agetD_aset2_eq]
        exact nodup_akeys_aset _ hnd

theorem initialize_noop (zt : ZoneTracker) (z : ℕ)
    (h : (aget zt.zone_entries z).isSome = true) : initialize_zone zt z = zt := by
  unfold initialize_zone
  rw [if_pos h]

theorem update_zone_current (zt : ZoneTracker) (z : ℕ) (pids : Finset ℤ) (now : ℚ) :
    (update_zone_tracking zt z pids now).zone_current
      = aset (initialize_zone zt z).zone_current z pids := by
  simp only [update_zone_tracking, zoneUpdCore]
  rw [(exitFold_spec z (initialize_zone zt z).frame_count
      (((initialize_zone zt z).frame_count : ℚ) / ((initialize_zone zt z).fps : ℚ)) now
      ((agetD (initialize_zone zt z).zone_current z ∅ \ pids).sort (· ≤ ·))
      (Finset.sort_nodup _ _) _).2.2.2.1]
  rw [(entryFold_spec z (initialize_zone zt z).frame_count
      (((initialize_zone zt z).frame_count : ℚ) / ((initialize_zone zt z).fps : ℚ)) now
      ((pids \ agetD (initialize_zone zt z).zone_current z ∅).sort (· ≤ ·)) _).2.2.2.2.1]

theorem update_zone_entries_isSome (zt : ZoneTracker) (z : ℕ) (pids : Finset ℤ)
    (now : ℚ) :
    (aget (update_zone_tracking zt z pids now).zone_entries z).isSome = true := by
  simp only [update_zone_tracking, zoneUpdCore]
  rw [(exitFold_spec z (initialize_zone zt z).frame_count
      (((initialize_zone zt z).frame_count : ℚ) / ((initialize_zone zt z).fps : ℚ)) now
      ((agetD (initialize_zone zt z).zone_current z ∅ \ pids).sort (· ≤ ·))
      (Finset.sort_nodup _ _) _).2.2.1]
  exact (entryFold_spec z (initialize_zone zt z).frame_count
      (((initialize_zone zt z).frame_count : ℚ) / ((initialize_zone zt z).fps : ℚ)) now
      ((pids \ agetD (initialize_zone zt z).zone_current z ∅).sort (· ≤ ·)) _).2.2.2.2.2.2.2.2.1
      (initialize_zone_obs zt z).2.2.2.2.2.2.2

/-- Claim C7: the zone update is idempotent per frame: re-running
`update_zone_tracking` with the identical zone and id set (at any later
wall-clock time) emits no events and leaves the whole state — in
particular `present`, `entry_time` and `cumulative_dwell` — unchanged. -/
theorem C7_zone_update_idempotent (zt : ZoneTracker) (z : ℕ) (pids : Finset ℤ)
    (now now' : ℚ) :
    update_zone_tracking (update_zone_tracking zt z pids now) z pids now'
      = update_zone_tracking zt z pids now := by
  have hcur1 := update_zone_current zt z pids now
  have hisSome := update_zone_entries_isSome zt z pids now
  have hgd : agetD (update_zone_tracking zt z pids now).zone_current z ∅ = pids := by
    rw [hcur1]
    unfold agetD
    rw [aget_aset_eq]
    rfl
  conv_lhs => rw [update_zone_tracking]
  rw [initialize_noop _ _ hisSome]
  simp only [zoneUpdCore]
  rw [hgd, Finset.sdiff_self, Finset.sort_empty]
  simp only [List.foldl_nil]
  rw [hcur1, aset_aset, ← hcur1]

theorem agetD_congr {α β : Type} [DecidableEq α] {l m : List (α × β)} {k : α}
    (d : β) (h : aget l k = aget m k) : agetD l k d = agetD m k d := by
  unfold agetD
  rw [h]

theorem flatMap_congr_mem {α β : Type} {l : List α} {f g : α → List β}
    (h : ∀ a ∈ l, f a = g a) : l.flatMap f = l.flatMap g := by
  induction l with
  | nil => rfl
  | cons a r ih =>
      rw [List.flatMap_cons, List.flatMap_cons, h a (List.mem_cons_self _ _),
        ih fun a' ha' => h a' (List.mem_cons_of_mem _ ha')]

theorem coreUpd_spec (zt0 : ZoneTracker) (z : ℕ) (pids : Finset ℤ) (now : ℚ) :
    (zoneUpdCore zt0 z pids now).fps = zt0.fps ∧
    (zoneUpdCore zt0 z pids now).frame_count = zt0.frame_count ∧
    (zoneUpdCore zt0 z pids now).analytics_data = zt0.analytics_data ++
      ((pids \ zCur zt0 z).sort (· ≤ ·)).map (fun q =>
        (⟨now, zt0.frame_count, round2 ((zt0.frame_count : ℚ) / (zt0.fps : ℚ)),
          q, z, ZEventKind.entry, none⟩ : ZoneEvent)) ++
      ((zCur zt0 z \ pids).sort (· ≤ ·)).flatMap (fun q =>
        match aget (zEntries zt0 z) q with
        | some t =>
            [(⟨now, zt0.frame_count, round2 ((zt0.frame_count : ℚ) / (zt0.fps : ℚ)),
              q, z, ZEventKind.leave, some (round2 (now - t))⟩ : ZoneEvent)]
        | none => []) ∧
    (∀ z', z' ≠ z →
      zEntries (zoneUpdCore zt0 z pids now) z' = zEntries zt0 z' ∧
      zExits (zoneUpdCore zt0 z pids now) z' = zExits zt0 z' ∧
      zDurations (zoneUpdCore zt0 z pids now) z' = zDurations zt0 z' ∧
      zCur (zoneUpdCore zt0 z pids now) z' = zCur zt0 z') ∧
    zCur (zoneUpdCore zt0 z pids now) z = pids ∧
    (∀ p : ℤ, aget (zEntries (zoneUpdCore zt0 z pids now) z) p
      = if p ∈ pids \ zCur zt0 z then some now else aget (zEntries zt0 z) p) ∧
    (∀ p : ℤ, p ∈ zCur zt0 z \ pids →
      aget (zExits (zoneUpdCore zt0 z pids now) z) p = some now ∧
      aget (zDurations (zoneUpdCore zt0 z pids now) z) p
        = (match aget (zEntries zt0 z) p with
           | some t => some (agetD (zDurations zt0 z) p 0 + (now - t))
           | none => aget (zDurations zt0 z) p)) ∧
    (∀ p : ℤ, p ∉ zCur zt0 z \ pids →
      aget (zExits (zoneUpdCore zt0 z pids now) z) p = aget (zExits zt0 z) p ∧
      aget (zDurations (zoneUpdCore zt0 z pids now) z) p
        = aget (zDurations zt0 z) p) ∧
    ((akeys (zEntries zt0 z)).Nodup →
      (akeys (zEntries (zoneUpdCore zt0 z pids now) z)).Nodup) ∧
    ((akeys (zExits zt0 z)).Nodup →
      (akeys (zExits (zoneUpdCore zt0 z pids now) z)).Nodup) := by
  obtain ⟨e1, e2, e3, e4, e5, e6, e7, e8, e9, e10⟩ :=
    entryFold_spec z zt0.frame_count ((zt0.frame_count : ℚ) / (zt0.fps : ℚ)) now
      ((pids \ agetD zt0.zone_current z ∅).sort (· ≤ ·)) zt0
  obtain ⟨x1, x2, x3, x4, x5, x6, x7, x8, x9⟩ :=
    exitFold_spec z zt0.frame_count ((zt0.frame_count : ℚ) / (zt0.fps : ℚ)) now
      ((agetD zt0.zone_current z ∅ \ pids).sort (· ≤ ·)) (Finset.sort_nodup _ _)
      (((pids \ agetD zt0.zone_current z ∅).sort (· ≤ ·)).foldl
        (processEntry z zt0.frame_count ((zt0.frame_count : ℚ) / (zt0.fps : ℚ)) now) zt0)
  set ztE := ((pids \ agetD zt0.zone_current z ∅).sort (· ≤ ·)).foldl
    (processEntry z zt0.frame_count ((zt0.frame_count : ℚ) / (zt0.fps : ℚ)) now) zt0
    with hztE
  set ztX := ((agetD zt0.zone_current z ∅ \ pids).sort (· ≤ ·)).foldl
    (processExit z zt0.frame_count ((zt0.frame_count : ℚ) / (zt0.fps : ℚ)) now) ztE
    with hztX
  have hcore : zoneUpdCore zt0 z pids now
      = { ztX with zone_current := aset ztX.zone_current z pids } := by
    simp only [zoneUpdCore]
  have hcur0 : zCur zt0 z = agetD zt0.zone_current z ∅ := rfl
  have hEntE : ∀ q : ℤ, q ∉ pids → aget (zEntries ztE z) q = aget (zEntries zt0 z) q := by
    intro q hq
    rw [e8 q, if_neg]
    intro hmem
    exact hq (Finset.mem_sdiff.mp ((Finset.mem_sort _).mp hmem)).1
  have hDurE : zDurations ztE z = zDurations zt0 z := by
    unfold zDurations
    rw [e4]
  refine ⟨?_, ?_, ?_, ?_, ?_, ?_, ?_, ?_, ?_, ?_⟩
  · rw [hcore]
    show ztX.fps = zt0.fps
    rw [x1, e1]
  · rw [hcore]
    show ztX.frame_count = zt0.frame_count
    rw [x2, e2]
  · rw [hcore]
    show ztX.analytics_data = _
    rw [x5, e6, hcur0, List.append_assoc, List.append_assoc]
    congr 1
    congr 1
    apply flatMap_congr_mem
    intro q hq
    have hqn : q ∉ pids :=
      (Finset.mem_sdiff.mp ((Finset.mem_sort _).mp hq)).2
    rw [hEntE q hqn]
  · intro z' hz'
    refine ⟨?_, ?_, ?_, ?_⟩
    · rw [hcore]
      show agetD ztX.zone_entries z' [] = zEntries zt0 z'
      rw [x3]
      exact agetD_congr _ (e7 z' hz')
    · rw [hcore]
      show agetD ztX.zone_exits z' [] = zExits zt0 z'
      have h6 := (x6 z' hz').1
      rw [show zExits zt0 z' = agetD zt0.zone_exits z' [] from rfl, ← e3]
      exact agetD_congr _ h6
    · rw [hcore]
      show agetD ztX.zone_durations z' [] = zDurations zt0 z'
      have h6 := (x6 z' hz').2
      rw [show zDurations zt0 z' = agetD zt0.zone_durations z' [] from rfl, ← e4]
      exact agetD_congr _ h6
    · rw [hcore]
      show agetD (aset ztX.zone_current z pids) z' ∅ = zCur zt0 z'
      calc agetD (aset ztX.zone_current z pids) z' ∅
          = agetD ztX.zone_current z' ∅ :=
            agetD_congr _ (aget_aset_ne _ _ _ _ (fun he => hz' he.symm))
        _ = zCur zt0 z' := by
            rw [x4, e5]
            rfl
  · rw [hcore]
    show agetD (aset ztX.zone_current z pids) z ∅ = pids
    unfold agetD
    rw [aget_aset_eq]
    rfl
  · intro p
    rw [hcore]
    show aget (agetD ztX.zone_entries z []) p = _
    rw [x3]
    have := e8 p
    unfold zEntries at this
    rw [this, hcur0]
    by_cases hp : p ∈ pids \ agetD zt0.zone_current z ∅
    · rw [if_pos ((Finset.mem_sort _).mpr hp), if_pos hp]
    · rw [if_neg (fun hm => hp ((Finset.mem_sort _).mp hm)), if_neg hp]
      rfl
  · intro p hp
    rw [hcur0] at hp
    have hp' : p ∈ (agetD zt0.zone_current z ∅ \ pids).sort (· ≤ ·) :=
      (Finset.mem_sort _).mpr hp
    obtain ⟨hx, hd⟩ := x8 p hp'
    constructor
    · rw [hcore]
      show aget (zExits ztX z) p = some now
      exact hx
    · rw [hcore]
      show aget (zDurations ztX z) p = _
      rw [hd]
      have hpn : p ∉ pids := (Finset.mem_sdiff.mp hp).2
      rw [hEntE p hpn, hDurE]
  · intro p hp
    rw [hcur0] at hp
    have hp' : p ∉ (agetD zt0.zone_current z ∅ \ pids).sort (· ≤ ·) :=
      fun hm => hp ((Finset.mem_sort _).mp hm)
    obtain ⟨hx, hd⟩ := x7 p hp'
    constructor
    · rw [hcore]
      show aget (zExits ztX z) p = aget (zExits zt0 z) p
      rw [hx]
      show aget (zExits ztE z) p = aget (zExits zt0 z) p
      unfold zExits
      rw [e3]
    · rw [hcore]
      show aget (zDurations ztX z) p = aget (zDurations zt0 z) p
      rw [hd]
      show aget (zDurations ztE z) p = aget (zDurations zt0 z) p
      rw [hDurE]
  · intro hnd
    rw [hcore]
    show (akeys (agetD ztX.zone_entries z [])).Nodup
    rw [x3]
    exact e10 hnd
  · intro hnd
    rw [hcore]
    show (akeys (agetD ztX.zone_exits z [])).Nodup
    apply x9
    unfold zExits
    rw [e3]
    exact hnd

theorem update_zone_spec (zt : ZoneTracker) (z : ℕ) (pids : Finset ℤ) (now : ℚ) :
    (update_zone_tracking zt z pids now).fps = zt.fps ∧
    (update_zone_tracking zt z pids now).frame_count = zt.frame_count ∧
    (update_zone_tracking zt z pids now).analytics_data = zt.analytics_data ++
      ((pids \ zCur zt z).sort (· ≤ ·)).map (fun q =>
        (⟨now, zt.frame_count, round2 ((zt.frame_count : ℚ) / (zt.fps : ℚ)),
          q, z, ZEventKind.entry, none⟩ : ZoneEvent)) ++
      ((zCur zt z \ pids).sort (· ≤ ·)).flatMap (fun q =>
        match aget (zEntries zt z) q with
        | some t =>
            [(⟨now, zt.frame_count, round2 ((zt.frame_count : ℚ) / (zt.fps : ℚ)),
              q, z, ZEventKind.leave, some (round2 (now - t))⟩ : ZoneEvent)]
        | none => []) ∧
    (∀ z', z' ≠ z →
      zEntries (update_zone_tracking zt z pids now) z' = zEntries zt z' ∧
      zExits (update_zone_tracking zt z pids now) z' = zExits zt z' ∧
      zDurations (update_zone_tracking zt z pids now) z' = zDurations zt z' ∧
      zCur (update_zone_tracking zt z pids now) z' = zCur zt z') ∧
    zCur (update_zone_tracking zt z pids now) z = pids ∧
    (∀ p : ℤ, aget (zEntries (update_zone_tracking zt z pids now) z) p
      = if p ∈ pids \ zCur zt z then some now else aget (zEntries zt z) p) ∧
    (∀ p : ℤ, p ∈ zCur zt z \ pids →
      aget (zExits (update_zone_tracking zt z pids now) z) p = some now ∧
      aget (zDurations (update_zone_tracking zt z pids now) z) p
        = (match aget (zEntries zt z) p with
           | some t => some (agetD (zDurations zt z) p 0 + (now - t))
           | none => aget (zDurations zt z) p)) ∧
    (∀ p : ℤ, p ∉ zCur zt z \ pids →
      aget (zExits (update_zone_tracking zt z pids now) z) p = aget (zExits zt z) p ∧
      aget (zDurations (update_zone_tracking zt z pids now) z) p
        = aget (zDurations zt z) p) ∧
    ((akeys (zEntries zt z)).Nodup →
      (akeys (zEntries (update_zone_tracking zt z pids now) z)).Nodup) ∧
    ((akeys (zExits zt z)).Nodup →
      (akeys (zExits (update_zone_tracking zt z pids now) z)).Nodup) := by
  obtain ⟨o1, o2, o3, o4, o5, o6, o7, o8⟩ := initialize_zone_obs zt z
  obtain ⟨c1, c2, c3, c4, c5, c6, c7, c8, c9, c10⟩ :=
    coreUpd_spec (initialize_zone zt z) z pids now
  have hu : update_zone_tracking zt z pids now
      = zoneUpdCore (initialize_zone zt z) z pids now := rfl
  simp only [o1, o2, o3, o4, o5, o6, o7] at c1 c2 c3 c5 c6 c7 c8
  refine ⟨?_, ?_, ?_, ?_, ?_, ?_, ?_, ?_, ?_, ?_⟩
  · rw [hu]; exact c1
  · rw [hu]; exact c2
  · rw [hu]; exact c3
  · intro z' hz'
    obtain ⟨d1, d2, d3, d4⟩ := c4 z' hz'
    rw [hu]
    exact ⟨d1.trans (o4 z'), d2.trans (o5 z'), d3.trans (o6 z'), d4.trans (o7 z')⟩
  · rw [hu]; exact c5
  · intro p
    rw [hu, c6 p]
  · intro p hp
    rw [hu]
    exact c7 p hp
  · intro p hp
    rw [hu]
    exact c8 p hp
  · intro hnd
    rw [hu]
    apply c9
    rw [o4 z]
    exact hnd
  · intro hnd
    rw [hu]
    apply c10
    rw [o5 z]
    exact hnd

theorem evFilter_append (a b : List ZoneEvent) (z : ℕ) (p : ℤ) :
    evFilter (a ++ b) z p = evFilter a z p ++ evFilter b z p := by
  unfold evFilter
  exact List.filter_append _ _

theorem pairKinds_append (a b : List ZoneEvent) (z : ℕ) (p : ℤ) :
    pairKinds (a ++ b) z p = pairKinds a z p ++ pairKinds b z p := by
  unfold pairKinds
  rw [evFilter_append, List.map_append]

theorem evFilter_single_entry (z fc : ℕ) (ft now : ℚ) (q p : ℤ) :
    evFilter [(⟨now, fc, ft, q, z, ZEventKind.entry, none⟩ : ZoneEvent)] z p
      = if q = p then
          [(⟨now, fc, ft, q, z, ZEventKind.entry, none⟩ : ZoneEvent)]
        else [] := by
  by_cases hpq : q = p
  · subst hpq
    simp [evFilter]
  · simp [evFilter, hpq]

theorem evFilter_entries (z fc : ℕ) (ft now : ℚ) (L : List ℤ) (hL : L.Nodup)
    (p : ℤ) :
    evFilter (L.map (fun q =>
        (⟨now, fc, ft, q, z, ZEventKind.entry, none⟩ : ZoneEvent))) z p
      = if p ∈ L then
          [(⟨now, fc, ft, p, z, ZEventKind.entry, none⟩ : ZoneEvent)]
        else [] := by
  induction L with
  | nil => simp [evFilter]
  | cons q R ih =>
      rw [List.nodup_cons] at hL
      rw [List.map_cons]
      rw [show ((⟨now, fc, ft, q, z, ZEventKind.entry, none⟩ : ZoneEvent) ::
          R.map (fun q => (⟨now, fc, ft, q, z, ZEventKind.entry, none⟩ : ZoneEvent)))
          = [(⟨now, fc, ft, q, z, ZEventKind.entry, none⟩ : ZoneEvent)] ++
          R.map (fun q => (⟨now, fc, ft, q, z, ZEventKind.entry, none⟩ : ZoneEvent))
          from rfl]
      rw [evFilter_append, evFilter_single_entry, ih hL.2]
      by_cases hpq : q = p
      · subst hpq
        rw [if_pos rfl, if_neg hL.1, if_pos (List.mem_cons_self _ _)]
        rfl
      · rw [if_neg hpq]
        by_cases hpR : p ∈ R
        · rw [if_pos hpR, if_pos (List.mem_cons_of_mem _ hpR)]
          rfl
        · rw [if_neg hpR, if_neg (fun hm => by
            rcases List.mem_cons.mp hm with h | h
            · exact hpq h.symm
            · exact hpR h)]
          rfl

theorem evFilter_single_exit (z fc : ℕ) (ft now : ℚ) (ent : List (ℤ × ℚ))
    (q p : ℤ) :
    evFilter (match aget ent q with
        | some t =>
            [(⟨now, fc, ft, q, z, ZEventKind.leave,
              some (round2 (now - t))⟩ : ZoneEvent)]
        | none => []) z p
      = if q = p then
          (match aget ent q with
           | some t =>
               [(⟨now, fc, ft, q, z, ZEventKind.leave,
                 some (round2 (now - t))⟩ : ZoneEvent)]
           | none => [])
        else [] := by
  cases hq : aget ent q with
  | some t =>
      by_cases hpq : q = p
      · subst hpq
        rw [if_pos rfl]
        simp [evFilter]
      · rw [if_neg hpq]
        simp [evFilter, hpq]
  | none =>
      by_cases hpq : q = p
      · rw [if_pos hpq]
        rfl
      · rw [if_neg hpq]
        rfl

theorem evFilter_exits (z fc : ℕ) (ft now : ℚ) (ent : List (ℤ × ℚ))
    (L : List ℤ) (hL : L.Nodup) (p : ℤ) :
    evFilter (L.flatMap (fun q =>
        match aget ent q with
        | some t =>
            [(⟨now, fc, ft, q, z, ZEventKind.leave,
              some (round2 (now - t))⟩ : ZoneEvent)]
        | none => [])) z p
      = if p ∈ L then
          (match aget ent p with
           | some t =>
               [(⟨now, fc, ft, p, z, ZEventKind.leave,
                 some (round2 (now - t))⟩ : ZoneEvent)]
           | none => [])
        else [] := by
  induction L with
  | nil => simp [evFilter]
  | cons q R ih =>
      rw [List.nodup_cons] at hL
      rw [List.flatMap_cons, evFilter_append, evFilter_single_exit, ih hL.2]
      by_cases hpq : q = p
      · subst hpq
        rw [if_pos rfl, if_neg hL.1, if_pos (List.mem_cons_self _ _)]
        rw [List.append_nil]
      · rw [if_neg hpq]
        by_cases hpR : p ∈ R
        · rw [if_pos hpR, if_pos (List.mem_cons_of_mem _ hpR)]
          rfl
        · rw [if_neg hpR, if_neg (fun hm => by
            rcases List.mem_cons.mp hm with h | h
            · exact hpq h.symm
            · exact hpR h)]
          rfl

theorem evFilter_zone_ne {lst : List ZoneEvent} {z z' : ℕ} (p : ℤ)
    (h : ∀ e ∈ lst, e.zone_id = z) (hz : z' ≠ z) : evFilter lst z' p = [] := by
  unfold evFilter
  rw [List.filter_eq_nil_iff]
  intro e he
  simp only [decide_eq_true_eq]
  intro hc
  exact hz ((hc.1.symm.trans (h e he)).symm ▸ rfl)

theorem insideAfter_append_one (l : List ZEventKind) (k : ZEventKind) (b : Bool) :
    insideAfter (l ++ [k]) b
      = match insideAfter l b, k with
        | some false, ZEventKind.entry => some true
        | some true, ZEventKind.leave => some false
        | _, _ => none := by
  induction l generalizing b with
  | nil =>
      cases b
      · cases k
        · rfl
        · rfl
      · cases k
        · rfl
        · rfl
  | cons a r ih =>
      cases a
      · cases b
        · rw [List.cons_append]
          show insideAfter (r ++ [k]) true = _
          exact ih true
        · rw [List.cons_append]
          show (none : Option Bool) = _
          rfl
      · cases b
        · rw [List.cons_append]
          show (none : Option Bool) = _
          rfl
        · rw [List.cons_append]
          show insideAfter (r ++ [k]) false = _
          exact ih false

/-- Claim C5 (amended): for each id in `present_prev \ present_now` the
zone engine computes `dwell = now − entry_time[zone, id]`, adds it to
`cumulative_dwell[zone, id]` and appends exactly one EXIT event for the
pair, carrying `dwell` rounded to two decimals; `entry_time[zone, id]`
is NOT cleared — the record persists unchanged after the exit. -/
theorem C5_exit_spec (zt : ZoneTracker) (z : ℕ) (pids : Finset ℤ) (now : ℚ)
    (p : ℤ) (tEntry : ℚ) (hcur : p ∈ zCur zt z) (hnp : p ∉ pids)
    (hentry : aget (zEntries zt z) p = some tEntry) :
    evFilter (update_zone_tracking zt z pids now).analytics_data z p
      = evFilter zt.analytics_data z p ++
        [(⟨now, zt.frame_count, round2 ((zt.frame_count : ℚ) / (zt.fps : ℚ)),
          p, z, ZEventKind.leave, some (round2 (now - tEntry))⟩ : ZoneEvent)] ∧
    aget (zDurations (update_zone_tracking zt z pids now) z) p
      = some (agetD (zDurations zt z) p 0 + (now - tEntry)) ∧
    aget (zEntries (update_zone_tracking zt z pids now) z) p = some tEntry := by
  obtain ⟨-, -, u3, -, -, u6, u7, -, -, -⟩ := update_zone_spec zt z pids now
  have hmem : p ∈ zCur zt z \ pids := Finset.mem_sdiff.mpr ⟨hcur, hnp⟩
  have hnpe : p ∉ pids \ zCur zt z := fun hm => hnp (Finset.mem_sdiff.mp hm).1
  refine ⟨?_, ?_, ?_⟩
  · rw [u3, evFilter_append, evFilter_append]
    rw [evFilter_entries z zt.frame_count (round2 ((zt.frame_count : ℚ) / (zt.fps : ℚ)))
      now _ (Finset.sort_nodup _ _) p]
    rw [evFilter_exits z zt.frame_count (round2 ((zt.frame_count : ℚ) / (zt.fps : ℚ)))
      now _ _ (Finset.sort_nodup _ _) p]
    rw [if_neg (fun hm => hnpe ((Finset.mem_sort _).mp hm))]
    rw [if_pos ((Finset.mem_sort _).mpr hmem), hentry]
    rw [List.append_nil]
  · rw [(u7 p hmem).2, hentry]
  · rw [u6 p, if_neg hnpe]
    exact hentry

/-- Claim C5 is false on the code as stated: after person 7 exits zone 0
in the run `c5zt2` (entry at time 0, exit at time 1/3), the entry-time
record for the pair still exists (it is never cleared), and the EXIT
event carries `33/100` — `dwell` rounded to two decimals — rather than
the dwell `1/3` itself. -/
theorem C5_counterexample :
    aget (zEntries c5zt2 0) 7 = some 0 ∧
    c5zt2.analytics_data.map ZoneEvent.duration_sec = [none, some (33/100)] ∧
    ¬ ((1 : ℚ) / 3 - 0 = 33 / 100) := by
  with_unfolding_all decide

/-- Witness for the amended C5 at the concrete run `c5zt1` (person 7
present in zone 0 with entry time 0), updated with the empty id set at
time 1/3. -/
theorem C5_exit_spec_witness :
    aget (zDurations c5zt2 0) 7
      = some (agetD (zDurations c5zt1 0) 7 0 + ((1 : ℚ) / 3 - 0)) ∧
    aget (zEntries c5zt2 0) 7 = some 0 := by
  have h := C5_exit_spec c5zt1 0 ∅ (1 / 3) 7 0
    (by with_unfolding_all decide)
    (by simp)
    (by with_unfolding_all decide)
  exact ⟨h.2.1, h.2.2⟩

theorem entryPersons_append (a b : List ZoneEvent) (z : ℕ) :
    entryPersons (a ++ b) z = entryPersons a z ∪ entryPersons b z := by
  unfold entryPersons
  rw [List.filter_append, List.map_append, List.toFinset_append]

theorem exitPersons_append (a b : List ZoneEvent) (z : ℕ) :
    exitPersons (a ++ b) z = exitPersons a z ∪ exitPersons b z := by
  unfold exitPersons
  rw [List.filter_append, List.map_append, List.toFinset_append]

theorem entry_map_zone (z fc : ℕ) (ft now : ℚ) (L : List ℤ) :
    ∀ e ∈ L.map (fun q => (⟨now, fc, ft, q, z, ZEventKind.entry, none⟩ : ZoneEvent)),
      e.zone_id = z ∧ e.kind = ZEventKind.entry := by
  intro e he
  obtain ⟨q, -, hq⟩ := List.mem_map.mp he
  rw [← hq]
  exact ⟨rfl, rfl⟩

theorem exit_flatMap_zone (z fc : ℕ) (ft now : ℚ) (ent : List (ℤ × ℚ))
    (L : List ℤ) :
    ∀ e ∈ L.flatMap (fun q =>
        match aget ent q with
        | some t =>
            [(⟨now, fc, ft, q, z, ZEventKind.leave,
              some (round2 (now - t))⟩ : ZoneEvent)]
        | none => []),
      e.zone_id = z ∧ e.kind = ZEventKind.leave ∧ e.person_id ∈ L := by
  intro e he
  obtain ⟨q, hqL, hq⟩ := List.mem_flatMap.mp he
  cases hget : aget ent q with
  | some t =>
      rw [hget] at hq
      rcases List.mem_singleton.mp hq with h
      rw [h]
      exact ⟨rfl, rfl, hqL⟩
  | none =>
      rw [hget] at hq
      simp at hq

theorem entryPersons_zone_ne {lst : List ZoneEvent} {z z' : ℕ}
    (h : ∀ e ∈ lst, e.zone_id = z) (hz : z' ≠ z) : entryPersons lst z' = ∅ := by
  unfold entryPersons
  rw [List.filter_eq_nil_iff.mpr]
  · rfl
  · intro e he
    simp only [decide_eq_true_eq]
    intro hc
    exact hz (by rw [← hc.1, h e he])

theorem exitPersons_zone_ne {lst : List ZoneEvent} {z z' : ℕ}
    (h : ∀ e ∈ lst, e.zone_id = z) (hz : z' ≠ z) : exitPersons lst z' = ∅ := by
  unfold exitPersons
  rw [List.filter_eq_nil_iff.mpr]
  · rfl
  · intro e he
    simp only [decide_eq_true_eq]
    intro hc
    exact hz (by rw [← hc.1, h e he])

theorem entryPersons_entry_map (z fc : ℕ) (ft now : ℚ) (L : List ℤ) :
    entryPersons (L.map (fun q =>
        (⟨now, fc, ft, q, z, ZEventKind.entry, none⟩ : ZoneEvent))) z
      = L.toFinset := by
  induction L with
  | nil => rfl
  | cons q R ih =>
      unfold entryPersons at ih ⊢
      rw [List.map_cons, List.filter_cons]
      simp only [decide_eq_true_eq]
      rw [if_pos ⟨trivial, trivial⟩, List.map_cons, List.toFinset_cons, ih,
        List.toFinset_cons]

theorem exitPersons_entry_map (z fc : ℕ) (ft now : ℚ) (L : List ℤ) :
    exitPersons (L.map (fun q =>
        (⟨now, fc, ft, q, z, ZEventKind.entry, none⟩ : ZoneEvent))) z = ∅ := by
  unfold exitPersons
  rw [List.filter_eq_nil_iff.mpr]
  · rfl
  · intro e he
    obtain ⟨-, hk⟩ := entry_map_zone z fc ft now L e he
    simp only [decide_eq_true_eq]
    intro hc
    rw [hk] at hc
    exact absurd hc.2 (by simp)

theorem entryPersons_exit_flatMap (z fc : ℕ) (ft now : ℚ) (ent : List (ℤ × ℚ))
    (L : List ℤ) :
    entryPersons (L.flatMap (fun q =>
        match aget ent q with
        | some t =>
            [(⟨now, fc, ft, q, z, ZEventKind.leave,
              some (round2 (now - t))⟩ : ZoneEvent)]
        | none => [])) z = ∅ := by
  unfold entryPersons
  rw [List.filter_eq_nil_iff.mpr]
  · rfl
  · intro e he
    obtain ⟨-, hk, -⟩ := exit_flatMap_zone z fc ft now ent L e he
    simp only [decide_eq_true_eq]
    intro hc
    rw [hk] at hc
    exact absurd hc.2 (by simp)

theorem exitPersons_exit_flatMap (z fc : ℕ) (ft now : ℚ) (ent : List (ℤ × ℚ))
    (L : List ℤ) (h : ∀ q ∈ L, (aget ent q).isSome = true) :
    exitPersons (L.flatMap (fun q =>
        match aget ent q with
        | some t =>
            [(⟨now, fc, ft, q, z, ZEventKind.leave,
              some (round2 (now - t))⟩ : ZoneEvent)]
        | none => [])) z = L.toFinset := by
  induction L with
  | nil => rfl
  | cons q R ih =>
      rw [List.flatMap_cons, exitPersons_append,
        ih fun q' hq' => h q' (List.mem_cons_of_mem _ hq')]
      obtain ⟨t, ht⟩ := Option.isSome_iff_exists.mp (h q (List.mem_cons_self _ _))
      rw [ht]
      unfold exitPersons
      rw [List.filter_cons]
      simp only [decide_eq_true_eq]
      rw [if_pos ⟨trivial, trivial⟩]
      rw [List.toFinset_cons]
      show insert q (∅ : Finset ℤ) ∪ R.toFinset = insert q R.toFinset
      rw [Finset.insert_union, Finset.empty_union]

theorem pairKinds_zone_ne {lst : List ZoneEvent} {z z' : ℕ} (p : ℤ)
    (h : ∀ e ∈ lst, e.zone_id = z) (hz : z' ≠ z) : pairKinds lst z' p = [] := by
  unfold pairKinds
  rw [evFilter_zone_ne p h hz]
  rfl

theorem ZInv_init : ZInv {} := by
  intro z
  refine ⟨List.nodup_nil, List.nodup_nil, ?_⟩
  intro p
  refine ⟨rfl, ?_, ?_, ?_⟩
  · simp [zEntries, agetD, aget, entryPersons]
  · simp [zExits, agetD, aget, exitPersons]
  · intro hp
    simp [zCur, agetD, aget] at hp

theorem ZInv_update (zt : ZoneTracker) (z : ℕ) (pids : Finset ℤ) (now : ℚ)
    (h : ZInv zt) : ZInv (update_zone_tracking zt z pids now) := by
  obtain ⟨u1, u2, u3, u4, u5, u6, u7, u8, u9, u10⟩ := update_zone_spec zt z pids now
  have hiso : ∀ q ∈ (zCur zt z \ pids).sort (· ≤ ·),
      (aget (zEntries zt z) q).isSome = true := by
    intro q hq
    exact ((h z).2.2 q).2.2.2
      (Finset.mem_sdiff.mp ((Finset.mem_sort _).mp hq)).1
  intro z'
  by_cases hz : z' = z
  · subst hz
    obtain ⟨hnd1, hnd2, hp⟩ := h z'
    refine ⟨u9 hnd1, u10 hnd2, ?_⟩
    intro p
    obtain ⟨hin, hent, hexi, hcur⟩ := hp p
    have hEP : entryPersons (update_zone_tracking zt z' pids now).analytics_data z'
        = entryPersons zt.analytics_data z' ∪ (pids \ zCur zt z') := by
      rw [u3, entryPersons_append, entryPersons_append,
        entryPersons_entry_map, entryPersons_exit_flatMap,
        Finset.sort_toFinset, Finset.union_empty]
    have hXP : exitPersons (update_zone_tracking zt z' pids now).analytics_data z'
        = exitPersons zt.analytics_data z' ∪ (zCur zt z' \ pids) := by
      rw [u3, exitPersons_append, exitPersons_append,
        exitPersons_entry_map, exitPersons_exit_flatMap _ _ _ _ _ _ hiso,
        Finset.sort_toFinset, Finset.union_empty]
    have hpair : pairKinds (update_zone_tracking zt z' pids now).analytics_data z' p
        = pairKinds zt.analytics_data z' p ++
          ((if p ∈ pids \ zCur zt z' then [ZEventKind.entry] else []) ++
           (if p ∈ zCur zt z' \ pids then [ZEventKind.leave] else [])) := by
      rw [u3, pairKinds_append, pairKinds_append, List.append_assoc]
      congr 1
      congr 1
      · unfold pairKinds
        rw [evFilter_entries z' zt.frame_count
          (round2 ((zt.frame_count : ℚ) / (zt.fps : ℚ))) now _
          (Finset.sort_nodup _ _) p]
        by_cases hpe : p ∈ pids \ zCur zt z'
        · rw [if_pos ((Finset.mem_sort _).mpr hpe), if_pos hpe]
          rfl
        · rw [if_neg (fun hm => hpe ((Finset.mem_sort _).mp hm)), if_neg hpe]
          rfl
      · unfold pairKinds
        rw [evFilter_exits z' zt.frame_count
          (round2 ((zt.frame_count : ℚ) / (zt.fps : ℚ))) now _ _
          (Finset.sort_nodup _ _) p]
        by_cases hpx : p ∈ zCur zt z' \ pids
        · rw [if_pos ((Finset.mem_sort _).mpr hpx), if_pos hpx]
          obtain ⟨t, ht⟩ := Option.isSome_iff_exists.mp
            (((h z').2.2 p).2.2.2 (Finset.mem_sdiff.mp hpx).1)
          rw [ht]
          rfl
        · rw [if_neg (fun hm => hpx ((Finset.mem_sort _).mp hm)), if_neg hpx]
          rfl
    refine ⟨?_, ?_, ?_, ?_⟩
    · rw [hpair, u5]
      by_cases hp1 : p ∈ pids
      · by_cases hp2 : p ∈ zCur zt z'
        · rw [if_neg (fun hm => (Finset.mem_sdiff.mp hm).2 hp2),
            if_neg (fun hm => (Finset.mem_sdiff.mp hm).2 hp1)]
          rw [List.append_nil, List.append_nil, hin]
          rw [decide_eq_true hp2, decide_eq_true hp1]
        · rw [if_pos (Finset.mem_sdiff.mpr ⟨hp1, hp2⟩),
            if_neg (fun hm => (Finset.mem_sdiff.mp hm).2 hp1)]
          rw [List.append_nil, insideAfter_append_one, hin]
          rw [decide_eq_false hp2, decide_eq_true hp1]
      · by_cases hp2 : p ∈ zCur zt z'
        · rw [if_neg (fun hm => hp1 (Finset.mem_sdiff.mp hm).1),
            if_pos (Finset.mem_sdiff.mpr ⟨hp2, hp1⟩)]
          rw [List.nil_append, insideAfter_append_one, hin]
          rw [decide_eq_true hp2, decide_eq_false hp1]
        · rw [if_neg (fun hm => hp1 (Finset.mem_sdiff.mp hm).1),
            if_neg (fun hm => hp2 (Finset.mem_sdiff.mp hm).1)]
          rw [List.append_nil, List.append_nil, hin]
          rw [decide_eq_false hp2, decide_eq_false hp1]
    · rw [u6 p, hEP]
      by_cases hpe : p ∈ pids \ zCur zt z'
      · rw [if_pos hpe]
        simp only [Option.isSome_some, Finset.mem_union]
        exact ⟨fun _ => Or.inr hpe, fun _ => trivial⟩
      · rw [if_neg hpe]
        rw [Finset.mem_union]
        constructor
        · intro hs
          exact Or.inl (hent.mp hs)
        · rintro (hs | hs)
          · exact hent.mpr hs
          · exact absurd hs hpe
    · rw [hXP]
      by_cases hpx : p ∈ zCur zt z' \ pids
      · rw [(u7 p hpx).1]
        simp only [Option.isSome_some, Finset.mem_union]
        exact ⟨fun _ => Or.inr hpx, fun _ => trivial⟩
      · rw [(u8 p hpx).1]
        rw [Finset.mem_union]
        constructor
        · intro hs
          exact Or.inl (hexi.mp hs)
        · rintro (hs | hs)
          · exact hexi.mpr hs
          · exact absurd hs hpx
    · intro hpc
      rw [u5] at hpc
      rw [u6 p]
      by_cases hpe : p ∈ pids \ zCur zt z'
      · rw [if_pos hpe]
        rfl
      · rw [if_neg hpe]
        have hp2 : p ∈ zCur zt z' := by
          by_contra hc
          exact hpe (Finset.mem_sdiff.mpr ⟨hpc, hc⟩)
        exact hcur hp2
  · obtain ⟨hnd1, hnd2, hp⟩ := h z'
    obtain ⟨d1, d2, d3, d4⟩ := u4 z' hz
    refine ⟨?_, ?_, ?_⟩
    · rw [d1]
      exact hnd1
    · rw [d2]
      exact hnd2
    · intro p
      obtain ⟨hin, hent, hexi, hcur⟩ := hp p
      have hEPz : entryPersons (update_zone_tracking zt z pids now).analytics_data z'
          = entryPersons zt.analytics_data z' := by
        rw [u3, entryPersons_append, entryPersons_append,
          entryPersons_zone_ne (fun e he => (entry_map_zone _ _ _ _ _ e he).1) hz,
          entryPersons_zone_ne (fun e he => (exit_flatMap_zone _ _ _ _ _ _ e he).1) hz,
          Finset.union_empty, Finset.union_empty]
      have hXPz : exitPersons (update_zone_tracking zt z pids now).analytics_data z'
          = exitPersons zt.analytics_data z' := by
        rw [u3, exitPersons_append, exitPersons_append,
          exitPersons_zone_ne (fun e he => (entry_map_zone _ _ _ _ _ e he).1) hz,
          exitPersons_zone_ne (fun e he => (exit_flatMap_zone _ _ _ _ _ _ e he).1) hz,
          Finset.union_empty, Finset.union_empty]
      refine ⟨?_, ?_, ?_, ?_⟩
      · rw [u3, pairKinds_append, pairKinds_append,
          pairKinds_zone_ne p (fun e he => (entry_map_zone _ _ _ _ _ e he).1) hz,
          pairKinds_zone_ne p (fun e he => (exit_flatMap_zone _ _ _ _ _ _ e he).1) hz,
          List.append_nil, List.append_nil, d4]
        exact hin
      · rw [d1, hEPz]
        exact hent
      · rw [d2, hXPz]
        exact hexi
      · rw [d1, d4]
        exact hcur

theorem ZInv_run (steps : List (ℕ × Finset ℤ × ℚ)) : ZInv (runZone steps) := by
  have hgen : ∀ (l : List (ℕ × Finset ℤ × ℚ)) (zt : ZoneTracker), ZInv zt →
      ZInv (l.foldl (fun zt s => update_zone_tracking zt s.1 s.2.1 s.2.2) zt) := by
    intro l
    induction l with
    | nil => exact fun zt h => h
    | cons s r ih =>
        intro zt h
        rw [List.foldl_cons]
        exact ih _ (ZInv_update zt s.1 s.2.1 s.2.2 h)
  exact hgen steps {} ZInv_init

/-- Claim C4: for every run of the zone engine and every
`(zone, person)` pair, the event log for the pair is accepted by the
strict-alternation automaton started outside — every EXIT is preceded by
its matching ENTRY, no second ENTRY precedes the closing EXIT, the
sequence begins with ENTRY — and the final automaton state equals the
pair's current presence. -/
theorem C4_zone_event_alternation (steps : List (ℕ × Finset ℤ × ℚ)) (z : ℕ)
    (p : ℤ) :
    insideAfter (pairKinds (runZone steps).analytics_data z p) false
      = some (decide (p ∈ zCur (runZone steps) z)) :=
  (((ZInv_run steps) z).2.2 p).1

theorem assoc_length_card {l : List (ℤ × ℚ)} {s : Finset ℤ}
    (hnd : (akeys l).Nodup)
    (hiff : ∀ p : ℤ, (aget l p).isSome = true ↔ p ∈ s) :
    l.length = s.card := by
  have h1 : (akeys l).toFinset = s := by
    ext p
    rw [List.mem_toFinset, ← aget_isSome_iff, hiff]
  rw [← h1, List.toFinset_card_of_nodup hnd, akeys, List.length_map]

/-- Claim C6 counterexample: person 1 enters zone 0, leaves, and
re-enters, so the log holds two entry events for zone 0, yet the
summary's `total_entries` is 1 — `total_entries` is the size of the
per-zone entry-time dict, which keeps one key per distinct person, so
replaying the event log does not reconstruct it. -/
theorem C6_counterexample :
    (get_zone_analytics c6run 0).total_entries = 1 ∧
    specReplayEntryCount c6run.analytics_data 0 = 2 := by
  constructor
  · with_unfolding_all decide
  · with_unfolding_all decide

/-- Claim C6 (corrected): for every run of the zone engine and every
zone, the summary's `total_entries` (`total_exits`) equals the number of
DISTINCT persons having an entry (exit) event for that zone in the
written log — not the number of entry (exit) events, from which it can
differ when a person re-enters. -/
theorem C6_totals_count_distinct_persons (steps : List (ℕ × Finset ℤ × ℚ))
    (z : ℕ) :
    (get_zone_analytics (runZone steps) z).total_entries
      = (entryPersons (runZone steps).analytics_data z).card ∧
    (get_zone_analytics (runZone steps) z).total_exits
      = (exitPersons (runZone steps).analytics_data z).card := by
  obtain ⟨hnd1, hnd2, hp⟩ := (ZInv_run steps) z
  obtain ⟨-, -, -, i4, i5, -, -, -⟩ := initialize_zone_obs (runZone steps) z
  constructor
  · show (zEntries (initialize_zone (runZone steps) z) z).length = _
    rw [i4 z]
    exact assoc_length_card hnd1 (fun p => (hp p).2.1)
  · show (zExits (initialize_zone (runZone steps) z) z).length = _
    rw [i5 z]
    exact assoc_length_card hnd2 (fun p => (hp p).2.2.1)

theorem firstIdx_of_not_mem {l : List String} {a : String} (h : a ∉ l) :
    firstIdx l a = l.length := by
  induction l with
  | nil => rfl
  | cons b r ih =>
      rw [firstIdx, if_neg (fun hb => h (by rw [hb]; exact List.mem_cons_self a r)),
        ih (fun hm => h (List.mem_cons_of_mem b hm)), List.length_cons]

theorem firstIdx_lt_length_of_mem {l : List String} {a : String} (h : a ∈ l) :
    firstIdx l a < l.length := by
  induction l with
  | nil => exact absurd h (List.not_mem_nil a)
  | cons b r ih =>
      rw [firstIdx, List.length_cons]
      by_cases hb : b = a
      · rw [if_pos hb]
        exact Nat.succ_pos _
      · rw [if_neg hb]
        have hr : a ∈ r := by
          rcases List.mem_cons.mp h with h1 | h1
          · exact absurd h1.symm hb
          · exact h1
        exact Nat.succ_lt_succ (ih hr)

theorem firstIdx_append (l m : List String) (a : String) :
    firstIdx (l ++ m) a
      = if a ∈ l then firstIdx l a else l.length + firstIdx m a := by
  induction l with
  | nil => simp [firstIdx]
  | cons b r ih =>
      by_cases hb : b = a
      · subst hb
        simp [firstIdx]
      · rw [List.cons_append, firstIdx, if_neg hb, ih, firstIdx, if_neg hb,
          List.length_cons]
        by_cases ha : a ∈ r
        · rw [if_pos ha, if_pos (List.mem_cons_of_mem b ha)]
        · rw [if_neg ha,
            if_neg (fun hc => (List.mem_cons.mp hc).elim (fun h1 => hb h1.symm) ha)]
          omega

theorem countOcc_append (l m : List String) (a : String) :
    countOcc (l ++ m) a = countOcc l a + countOcc m a := by
  unfold countOcc
  rw [List.filter_append, List.length_append]

theorem countOcc_singleton (b a : String) :
    countOcc [b] a = if b = a then 1 else 0 := by
  by_cases hb : b = a
  · rw [if_pos hb]
    simp [countOcc, hb]
  · rw [if_neg hb]
    simp [countOcc, hb]

theorem countOcc_eq_zero {l : List String} {a : String} (h : a ∉ l) :
    countOcc l a = 0 := by
  unfold countOcc
  rw [List.length_eq_zero, List.filter_eq_nil_iff]
  intro x hx
  simp only [decide_eq_true_eq]
  intro he
  exact h (he ▸ hx)

theorem bump_countsOk {pre : List String} {cs : List (String × ℕ)}
    (h : CountsOk pre cs) (a : String) : CountsOk (pre ++ [a]) (bump cs a) := by
  obtain ⟨h1, h2, h3, h4⟩ := h
  have hco : ∀ x, countOcc (pre ++ [a]) x
      = countOcc pre x + (if a = x then 1 else 0) := by
    intro x
    rw [countOcc_append, countOcc_singleton]
  have hfi : ∀ x ∈ pre, firstIdx (pre ++ [a]) x = firstIdx pre x := by
    intro x hx
    rw [firstIdx_append, if_pos hx]
  unfold bump
  cases hga : aget cs a with
  | some c =>
      have hain : a ∈ pre := by
        by_contra hc
        rw [h1 a, if_neg hc] at hga
        exact Option.noConfusion hga
      have hc_eq : countOcc pre a = c := by
        rw [h1 a, if_pos hain] at hga
        exact Option.some.inj hga
      have hmem : a ∈ akeys cs := by
        rw [← aget_isSome_iff, hga]
        rfl
      refine ⟨?_, ?_, ?_, ?_⟩
      · intro x
        by_cases hx : x = a
        · subst hx
          rw [aget_aset_eq cs x (c + 1),
            if_pos (List.mem_append.mpr (Or.inr (List.mem_singleton.mpr rfl))),
            hco, if_pos rfl, hc_eq]
        · rw [aget_aset_ne cs a x (c + 1) (fun he => hx he.symm), h1 x]
          have hmm : x ∈ pre ++ [a] ↔ x ∈ pre := by
            rw [List.mem_append]
            constructor
            · rintro (hm | hm)
              · exact hm
              · exact absurd (List.mem_singleton.mp hm) hx
            · exact Or.inl
          by_cases hxp : x ∈ pre
          · rw [if_pos hxp, if_pos (hmm.mpr hxp), hco,
              if_neg (fun he => hx he.symm), Nat.add_zero]
          · rw [if_neg hxp, if_neg (fun hc => hxp (hmm.mp hc))]
      · rw [akeys_aset_of_mem (c + 1) hmem]
        exact h2
      · rw [akeys_aset_of_mem (c + 1) hmem]
        refine List.Pairwise.imp_of_mem ?_ h3
        intro x y hx hy hr
        rw [hfi x (h4 x hx), hfi y (h4 y hy)]
        exact hr
      · intro x hx
        rw [akeys_aset_of_mem (c + 1) hmem] at hx
        exact List.mem_append.mpr (Or.inl (h4 x hx))
  | none =>
      have hanotin : a ∉ pre := by
        intro hc
        rw [h1 a, if_pos hc] at hga
        exact Option.noConfusion hga
      have hkey : a ∉ akeys cs := by
        rw [← aget_isSome_iff, hga]
        simp
      have hs : akeys [(a, (1 : ℕ))] = [a] := rfl
      refine ⟨?_, ?_, ?_, ?_⟩
      · intro x
        by_cases hx : x = a
        · subst hx
          have hg1 : aget [(x, (1 : ℕ))] x = some 1 := by
            simp [aget]
          rw [aget_append_of_none _ hga, hg1,
            if_pos (List.mem_append.mpr (Or.inr (List.mem_singleton.mpr rfl))),
            hco, if_pos rfl, countOcc_eq_zero hanotin]
        · have hg1 : aget [(a, (1 : ℕ))] x = none := by
            simp [aget]
            exact fun he => hx he.symm
          by_cases hxp : x ∈ pre
          · have hgx : aget cs x = some (countOcc pre x) := by
              rw [h1 x, if_pos hxp]
            rw [aget_append_of_some _ hgx,
              if_pos (List.mem_append.mpr (Or.inl hxp)), hco,
              if_neg (fun he => hx he.symm), Nat.add_zero]
          · have hgx : aget cs x = none := by
              rw [h1 x, if_neg hxp]
            rw [aget_append_of_none _ hgx, hg1,
              if_neg (fun hc => (List.mem_append.mp hc).elim hxp
                (fun hm => hx (List.mem_singleton.mp hm)))]
      · rw [akeys_append, hs, List.nodup_append]
        exact ⟨h2, List.nodup_singleton a,
          fun x hx hxa => hkey ((List.mem_singleton.mp hxa) ▸ hx)⟩
      · rw [akeys_append, hs, List.pairwise_append]
        refine ⟨?_, List.pairwise_singleton _ _, ?_⟩
        · refine List.Pairwise.imp_of_mem ?_ h3
          intro x y hx hy hr
          rw [hfi x (h4 x hx), hfi y (h4 y hy)]
          exact hr
        · intro x hx y hy
          rw [List.mem_singleton.mp hy, hfi x (h4 x hx),
            firstIdx_append, if_neg hanotin]
          have h5 : firstIdx [a] a = 0 := by
            simp [firstIdx]
          rw [h5, Nat.add_zero]
          exact firstIdx_lt_length_of_mem (h4 x hx)
      · intro x hx
        rw [akeys_append, hs] at hx
        rcases List.mem_append.mp hx with hm | hm
        · exact List.mem_append.mpr (Or.inl (h4 x hm))
        · exact List.mem_append.mpr (Or.inr hm)

theorem buildCounts_ok (l : List String) : CountsOk l (buildCounts l) := by
  have hgen : ∀ (m pre : List String) (cs : List (String × ℕ)), CountsOk pre cs →
      CountsOk (pre ++ m) (m.foldl bump cs) := by
    intro m
    induction m with
    | nil =>
        intro pre cs h
        rw [List.append_nil]
        exact h
    | cons a r ih =>
        intro pre cs h
        rw [List.foldl_cons]
        have hr := ih (pre ++ [a]) (bump cs a) (bump_countsOk h a)
        rw [List.append_assoc] at hr
        exact hr
  have h0 : CountsOk [] ([] : List (String × ℕ)) := by
    refine ⟨?_, List.nodup_nil, List.Pairwise.nil, ?_⟩
    · intro a
      simp [aget]
    · intro a ha
      exact absurd ha (List.not_mem_nil a)
  have hr := hgen l [] [] h0
  rw [List.nil_append] at hr
  exact hr

theorem foldMax_first (r : List (String × ℕ)) (p : String × ℕ) :
    (r.foldl maxStep p = p ∧ ∀ q ∈ r, q.2 ≤ p.2) ∨
    (∃ l₁ q l₂, r = l₁ ++ q :: l₂ ∧ r.foldl maxStep p = q ∧
      (∀ u ∈ p :: l₁, u.2 < q.2) ∧ (∀ u ∈ l₂, u.2 ≤ q.2)) := by
  induction r generalizing p with
  | nil => exact Or.inl ⟨rfl, fun q hq => absurd hq (List.not_mem_nil q)⟩
  | cons a r ih =>
      rw [List.foldl_cons]
      by_cases ha : p.2 < a.2
      · have hstep : maxStep p a = a := by
          unfold maxStep
          rw [if_pos ha]
        rw [hstep]
        rcases ih a with ⟨he, hub⟩ | ⟨l₁, q, l₂, hsplit, hres, hlt, hub⟩
        · right
          refine ⟨[], a, r, rfl, he, ?_, hub⟩
          intro u hu
          rcases List.mem_cons.mp hu with hm | hm
          · rw [hm]
            exact ha
          · exact absurd hm (List.not_mem_nil u)
        · right
          refine ⟨a :: l₁, q, l₂, by rw [hsplit, List.cons_append], hres, ?_, hub⟩
          intro u hu
          rcases List.mem_cons.mp hu with hm | hm
          · rw [hm]
            exact lt_trans ha (hlt a (List.mem_cons_self a l₁))
          · exact hlt u hm
      · have hstep : maxStep p a = p := by
          unfold maxStep
          rw [if_neg ha]
        rw [hstep]
        rcases ih p with ⟨he, hub⟩ | ⟨l₁, q, l₂, hsplit, hres, hlt, hub⟩
        · left
          refine ⟨he, ?_⟩
          intro u hu
          rcases List.mem_cons.mp hu with hm | hm
          · rw [hm]
            exact Nat.le_of_not_lt ha
          · exact hub u hm
        · right
          refine ⟨a :: l₁, q, l₂, by rw [hsplit, List.cons_append], hres, ?_, hub⟩
          intro u hu
          rcases List.mem_cons.mp hu with hm | hm
          · rw [hm]
            exact hlt p (List.mem_cons_self p l₁)
          · rcases List.mem_cons.mp hm with hm2 | hm2
            · rw [hm2]
              exact Nat.lt_of_le_of_lt (Nat.le_of_not_lt ha)
                (hlt p (List.mem_cons_self p l₁))
            · exact hlt u (List.mem_cons_of_mem p hm2)

theorem maxKey_spec (w : List String) (cs : List (String × ℕ))
    (hok : CountsOk w cs) (hne : cs ≠ []) :
    maxKey cs ∈ w ∧
    (∀ l ∈ w, countOcc w l ≤ countOcc w (maxKey cs)) ∧
    (∀ l ∈ w, countOcc w l = countOcc w (maxKey cs) →
      firstIdx w (maxKey cs) ≤ firstIdx w l) := by
  obtain ⟨h1, h2, h3, h4⟩ := hok
  cases cs with
  | nil => exact absurd rfl hne
  | cons p r =>
      have hval : ∀ e ∈ p :: r, e.2 = countOcc w e.1 ∧ e.1 ∈ w := by
        intro e he
        have hg : aget (p :: r) e.1 = some e.2 := by
          refine aget_mem_nodup h2 ?_
          rw [Prod.mk.eta]
          exact he
        have hh := h1 e.1
        rw [hg] at hh
        by_cases hm : e.1 ∈ w
        · rw [if_pos hm] at hh
          exact ⟨Option.some.inj hh, hm⟩
        · rw [if_neg hm] at hh
          exact Option.noConfusion hh
      have hmk : maxKey (p :: r) = (r.foldl maxStep p).1 := rfl
      rcases foldMax_first r p with ⟨he, hub⟩ | ⟨l₁, q, l₂, hsplit, hres, hlt, hub2⟩
      · rw [hmk, he]
        obtain ⟨hpv, hpw⟩ := hval p (List.mem_cons_self p r)
        refine ⟨hpw, ?_, ?_⟩
        · intro l hl
          have hgl : aget (p :: r) l = some (countOcc w l) := by
            rw [h1 l, if_pos hl]
          have hml := aget_some_mem hgl
          rcases List.mem_cons.mp hml with hm | hm
          · have h6 : countOcc w l = p.2 := congrArg Prod.snd hm
            exact le_of_eq (h6.trans hpv)
          · have h6 : countOcc w l ≤ p.2 := hub _ hm
            exact le_of_le_of_eq h6 hpv
        · intro l hl htie
          have hgl : aget (p :: r) l = some (countOcc w l) := by
            rw [h1 l, if_pos hl]
          have hml := aget_some_mem hgl
          rcases List.mem_cons.mp hml with hm | hm
          · have h6 : l = p.1 := congrArg Prod.fst hm
            exact le_of_eq (by rw [h6])
          · have hkl : l ∈ akeys r := List.mem_map_of_mem Prod.fst hm
            have h3' := h3
            rw [akeys_cons] at h3'
            exact Nat.le_of_lt ((List.pairwise_cons.mp h3').1 l hkl)
      · rw [hmk, hres]
        have hqmem : q ∈ p :: r := by
          rw [hsplit]
          exact List.mem_cons_of_mem p
            (List.mem_append.mpr (Or.inr (List.mem_cons_self q l₂)))
        obtain ⟨hqv, hqw⟩ := hval q hqmem
        refine ⟨hqw, ?_, ?_⟩
        · intro l hl
          have hgl : aget (p :: r) l = some (countOcc w l) := by
            rw [h1 l, if_pos hl]
          have hml := aget_some_mem hgl
          rw [hsplit] at hml
          rcases List.mem_cons.mp hml with hm | hm
          · have h6 := hlt _ (List.mem_cons_self p l₁)
            have h7 : countOcc w l = p.2 := congrArg Prod.snd hm
            rw [h7, ← hqv]
            exact Nat.le_of_lt h6
          · rcases List.mem_append.mp hm with hm2 | hm2
            · have h6 : countOcc w l < q.2 := hlt _ (List.mem_cons_of_mem p hm2)
              rw [← hqv]
              exact Nat.le_of_lt h6
            · rcases List.mem_cons.mp hm2 with hm3 | hm3
              · have h7 : countOcc w l = q.2 := congrArg Prod.snd hm3
                rw [h7, ← hqv]
              · have h6 : countOcc w l ≤ q.2 := hub2 _ hm3
                rw [← hqv]
                exact h6
        · intro l hl htie
          have hgl : aget (p :: r) l = some (countOcc w l) := by
            rw [h1 l, if_pos hl]
          have hml := aget_some_mem hgl
          rw [hsplit] at hml
          rcases List.mem_cons.mp hml with hm | hm
          · have h7 : countOcc w l = p.2 := congrArg Prod.snd hm
            have h6 := hlt _ (List.mem_cons_self p l₁)
            have h8 : p.2 = q.2 := by
              rw [← h7, htie, ← hqv]
            exact absurd (h8 ▸ h6) (lt_irrefl q.2)
          · rcases List.mem_append.mp hm with hm2 | hm2
            · have h6 : countOcc w l < q.2 := hlt _ (List.mem_cons_of_mem p hm2)
              have h8 : countOcc w l = q.2 := by
                rw [htie, ← hqv]
              exact absurd (h8 ▸ h6) (lt_irrefl q.2)
            · rcases List.mem_cons.mp hm2 with hm3 | hm3
              · have h6 : l = q.1 := congrArg Prod.fst hm3
                exact le_of_eq (by rw [h6])
              · have hkl : l ∈ akeys l₂ := List.mem_map_of_mem Prod.fst hm3
                have h3' := h3
                rw [hsplit, akeys_cons, akeys_append, akeys_cons] at h3'
                have h9 := (List.pairwise_cons.mp h3').2
                have h10 := (List.pairwise_append.mp h9).2.1
                exact Nat.le_of_lt ((List.pairwise_cons.mp h10).1 l hkl)

/-- Claim C9 counterexample: in the history
`["sitting", "standing", "sitting", "standing"]` the counts of
`"sitting"` and `"standing"` tie at 2 and `"standing"` occurs more
recently (it is first in the reversed window), yet
`get_dominant_activity` returns `"sitting"` — Python
`max(counts, key=counts.get)` resolves ties in favour of the key first
inserted into the counts dict, i.e. the label whose occurrence is
EARLIEST in the window, not most recent. -/
theorem C9_counterexample :
    get_dominant_activity c9det 1 10 = "sitting" ∧
    countOcc c9hist "standing" = countOcc c9hist "sitting" ∧
    firstIdx c9hist.reverse "standing" < firstIdx c9hist.reverse "sitting" ∧
    recentWindow c9hist 10 = c9hist := by
  refine ⟨?_, ?_, ?_, ?_⟩
  · with_unfolding_all decide
  · with_unfolding_all decide
  · with_unfolding_all decide
  · with_unfolding_all decide

/-- Claim C9 (corrected): for every track whose label history is
non-empty, `get_dominant_activity` returns a label of the last-`window`
slice that occurs at least as often in the slice as every other label
there, and on ties it is the label whose FIRST occurrence in the slice
is earliest (first insertion into the counts dict wins in Python's
`max`), not the one occurring most recently. -/
theorem C9_dominant_first_max (det : PoseTemporalDetector) (pid : ℤ)
    (window : ℕ) (h : List String)
    (hh : aget det.activity_history pid = some h) (hne : h ≠ []) :
    get_dominant_activity det pid window ∈ recentWindow h window ∧
    (∀ l ∈ recentWindow h window,
      countOcc (recentWindow h window) l
        ≤ countOcc (recentWindow h window) (get_dominant_activity det pid window)) ∧
    (∀ l ∈ recentWindow h window,
      countOcc (recentWindow h window) l
          = countOcc (recentWindow h window) (get_dominant_activity det pid window) →
        firstIdx (recentWindow h window) (get_dominant_activity det pid window)
          ≤ firstIdx (recentWindow h window) l) := by
  have hred : get_dominant_activity det pid window
      = maxKey (buildCounts (recentWindow h window)) := by
    unfold get_dominant_activity
    rw [hh]
    show (if h = [] then "unknown"
      else maxKey (buildCounts (recentWindow h window))) = _
    rw [if_neg hne]
  have hrec : recentWindow h window ≠ [] := by
    unfold recentWindow
    by_cases hw : window = 0
    · rw [if_pos hw]
      exact hne
    · rw [if_neg hw]
      intro hc
      rw [List.drop_eq_nil_iff] at hc
      have hl : 0 < h.length := List.length_pos.mpr hne
      omega
  have hok := buildCounts_ok (recentWindow h window)
  have hcs : buildCounts (recentWindow h window) ≠ [] := by
    intro hc
    obtain ⟨x, hx⟩ := List.exists_mem_of_ne_nil _ hrec
    have hg := hok.1 x
    rw [hc, if_pos hx] at hg
    simp [aget] at hg
  rw [hred]
  exact maxKey_spec (recentWindow h window) _ hok hcs

/-- Witness for C9 at the tie fixture: the history of track 1 is the
four-label list, it is non-empty, and the theorem's conclusion holds
there. -/
theorem C9_dominant_first_max_witness :
    aget c9det.activity_history 1 = some c9hist ∧ c9hist ≠ [] ∧
    (get_dominant_activity c9det 1 10 ∈ recentWindow c9hist 10 ∧
    (∀ l ∈ recentWindow c9hist 10,
      countOcc (recentWindow c9hist 10) l
        ≤ countOcc (recentWindow c9hist 10) (get_dominant_activity c9det 1 10)) ∧
    (∀ l ∈ recentWindow c9hist 10,
      countOcc (recentWindow c9hist 10) l
          = countOcc (recentWindow c9hist 10) (get_dominant_activity c9det 1 10) →
        firstIdx (recentWindow c9hist 10) (get_dominant_activity c9det 1 10)
          ≤ firstIdx (recentWindow c9hist 10) l)) :=
  ⟨by with_unfolding_all decide, by with_unfolding_all decide,
    C9_dominant_first_max c9det 1 10 c9hist (by with_unfolding_all decide)
      (by with_unfolding_all decide)⟩

/-- Claim C10: when pose detection yields no keypoints,
`classify_activity` returns `"no_pose"` and the returned state is the
input state unchanged — in particular the keypoint history, the
activity-label history, and any subsequent `get_dominant_activity`
result are exactly what they were before the call, for known and
unseen tracks alike. -/
theorem C10_no_pose_preserves_state (headTilt : Keypoints → ℚ)
    (isSitting : Keypoints → Bool) (det : PoseTemporalDetector) (pid pid' : ℤ)
    (ts : ℚ) (window : ℕ) :
    classify_activity headTilt isSitting det pid none ts = ("no_pose", det) ∧
    (classify_activity headTilt isSitting det pid none ts).2.keypoint_history
      = det.keypoint_history ∧
    (classify_activity headTilt isSitting det pid none ts).2.activity_history
      = det.activity_history ∧
    get_dominant_activity
        (classify_activity headTilt isSitting det pid none ts).2 pid' window
      = get_dominant_activity det pid' window :=
  ⟨rfl, rfl, rfl, rfl⟩
